import Mathlib

/-!
Verification of the PTS repository's sweep/stabilization control core.

Shallow embedding conventions:
* Python floats are modelled as exact rationals (ℚ); Python machine strings
  used as file names and paths are modelled as List Char; SCPI command
  strings (only compared for equality) are modelled as String.
* Fallible code returns Option; a caught exception that aborts a run is a
  `fatalLogged` trace event.
* Unbounded `while` loops are translated with an explicit fuel argument
  computed in advance from the loop's own progress measure; adequacy of the
  fuel is proved separately (the loop body is never cut short).
-/

namespace PTS

/-- 1e-9, the slack used by `_float_range`'s loop bounds (CT_P.py line 260/264,
CT_L.py line 455/459). -/
def eps9 : ℚ := 1 / 1000000000

/-- 1e-6, the float-tolerance used by the spec's deduplication clause, and the
grid of Python's round(t, 6). -/
def tol6 : ℚ := 1 / 1000000

/-- Python's round-half-to-even on a rational, to an integer
(CPython `round(x)` semantics). -/
def pyRoundHalfEven (q : ℚ) : ℤ :=
  if q - (⌊q⌋ : ℚ) < 1 / 2 then ⌊q⌋
  else if 1 / 2 < q - (⌊q⌋ : ℚ) then ⌊q⌋ + 1
  else if Even ⌊q⌋ then ⌊q⌋ else ⌊q⌋ + 1

/-- Python's `round(t, 6)` on a rational: round-half-to-even onto the 1e-6
grid. Used by `_float_range` on every appended value. -/
def pyRound6 (q : ℚ) : ℚ :=
  (pyRoundHalfEven (q * 1000000) : ℚ) / 1000000

/-- The descending branch of `TestRunner._float_range`
(CT_P.py lines 263-266, CT_L.py lines 458-461):
`while t >= stop - 1e-9: out.append(round(t, 6)); t -= step_magnitude`.
`fuel` is an upper bound on the iteration count, fixed at the call site. -/
def floatRangeDescAux (stp s : ℚ) : ℕ → ℚ → List ℚ
  | 0, _ => []
  | fuel + 1, t =>
    if stp - eps9 ≤ t then pyRound6 t :: floatRangeDescAux stp s fuel (t - s)
    else []

/-- The ascending branch of `TestRunner._float_range`
(CT_P.py lines 259-262): `while t <= stop + 1e-9: append; t += step_magnitude`. -/
def floatRangeAscAux (stp s : ℚ) : ℕ → ℚ → List ℚ
  | 0, _ => []
  | fuel + 1, t =>
    if t ≤ stp + eps9 then pyRound6 t :: floatRangeAscAux stp s fuel (t + s)
    else []

/-- Fuel bound for the descending loop started at `t`: one more than the
number of `s`-sized steps from `t` down to `stop - 1e-9`. -/
def descFuel (stp s t : ℚ) : ℕ := (⌊(t - stp + eps9) / s⌋).toNat + 2

/-- Fuel bound for the ascending loop started at `t`. -/
def ascFuel (stp s t : ℚ) : ℕ := (⌊(stp - t + eps9) / s⌋).toNat + 2

/-- `TestRunner._float_range` (CT_P.py lines 253-267 and, identically,
CT_L.py lines 448-462). `step = 0` raises ValueError, modelled as `none`. -/
def float_range (start stp step : ℚ) : Option (List ℚ) :=
  if step = 0 then none
  else
    some (if start < stp
      then floatRangeAscAux stp |step| (ascFuel stp |step| start) start
      else floatRangeDescAux stp |step| (descFuel stp |step| start) start)

/-! ## PeakDetector (zhongzi/SingleFrequency.py lines 379-445) -/

/-- `np.mean` of a list of samples (division by zero yields 0 in ℚ; every use
below is on a nonempty list). -/
def listMean (l : List ℚ) : ℚ := l.sum / (l.length : ℚ)

/-- The state of a `PeakDetector` object: the fields set in `__init__`
(line 380-384; the log sink carries no data). `find` reads these fields and
never assigns them. -/
structure PeakDetector where
  thresh_db : ℚ
  prom_db : ℚ
  guard : ℕ
deriving DecidableEq

/-- `edge_points` (lines 392-394): `int(len(y)*0.1)`, raised to 10 if smaller.
For `n ≥ 0`, `int(n*0.1)` equals `n / 10` in ℕ. -/
def edgePoints (n : ℕ) : ℕ := if n / 10 < 10 then 10 else n / 10

/-- The global noise floor (lines 397-398): mean of `y[:edge] ++ y[-edge:]`. -/
def noiseFloor (y : List ℚ) : ℚ :=
  listMean (y.take (edgePoints y.length) ++ y.drop (y.length - edgePoints y.length))

/-- `narrow_guard = max(1, int(g/2))` (line 408). -/
def narrowGuard (g : ℕ) : ℕ := max 1 (g / 2)

/-- The in-range core of the local-maximum test of lines 414-418: `y[i]`
strictly greater than all samples within the reduced guard radius on both
sides, with clamped (`getD`, ℕ-truncated) indexing. The faithful test with
Python's index semantics (negative-index wraparound, IndexError) is
`localMaxChkE` below; for in-range probes the two agree (`localMaxGo_eq`),
which covers every index the scan visits when `guard ≥ 1`. -/
def localMaxChk (y : List ℚ) (i narrow : ℕ) : Bool :=
  (List.range' 1 narrow).all fun j =>
    decide (y.getD (i - j) 0 < y.getD i 0) && decide (y.getD (i + j) 0 < y.getD i 0)

/-- `left_nb = y_dbm[max(0, i-g-2):i]` (line 422). -/
def leftNb (y : List ℚ) (i g : ℕ) : List ℚ := (y.take i).drop (i - (g + 2))

/-- `right_nb = y_dbm[i+1:min(len(y_dbm), i+g+3)]` (line 423). -/
def rightNb (y : List ℚ) (i g : ℕ) : List ℚ := (y.drop (i + 1)).take (g + 2)

/-- `left_mean` (line 424), falling back to the global noise on an empty window. -/
def leftMean (y : List ℚ) (i g : ℕ) (noise : ℚ) : ℚ :=
  if leftNb y i g = [] then noise else listMean (leftNb y i g)

/-- `right_mean` (line 425). -/
def rightMean (y : List ℚ) (i g : ℕ) (noise : ℚ) : ℚ :=
  if rightNb y i g = [] then noise else listMean (rightNb y i g)

/-- `local_noise = min(left_mean, right_mean, noise)` (line 428). -/
def localNoise (y : List ℚ) (i g : ℕ) (noise : ℚ) : ℚ :=
  min (min (leftMean y i g noise) (rightMean y i g noise)) noise

/-- The body of the `for i in range(g, len(y)-g)` loop of lines 410-443,
processing the index list in order and appending accepted triples
`(x[i], y[i], local_noise)`. -/
def pdScan (d : PeakDetector) (x y : List ℚ) (noise : ℚ) (narrow : ℕ) :
    List ℕ → List (ℚ × ℚ × ℚ)
  | [] => []
  | i :: rest =>
    if localMaxChk y i narrow
        ∧ d.thresh_db ≤ y.getD i 0 - localNoise y i d.guard noise
        ∧ d.prom_db * (4 / 5) ≤
            y.getD i 0 - max (leftMean y i d.guard noise) (rightMean y i d.guard noise)
    then (x.getD i 0, y.getD i 0, localNoise y i d.guard noise) :: pdScan d x y noise narrow rest
    else pdScan d x y noise narrow rest

/-- The clamped-index core of `PeakDetector.find` (lines 386-445), built on
`localMaxChk`. The faithful embedding under Python's exact index semantics is
`pdFindE` below; for `guard ≥ 1` — where the scan never probes an
out-of-range index — the two agree (`pdFindE_eq_pdFind`). -/
def pdFind (d : PeakDetector) (x y : List ℚ) : List (ℚ × ℚ × ℚ) :=
  if y.length < 2 * d.guard + 1 then []
  else
    pdScan d x y (noiseFloor y) (narrowGuard d.guard)
      (List.range' d.guard (y.length - 2 * d.guard))

/-- `find` as a state transformer on the detector object: the method body
contains no assignment to `self`, so the object state it returns is the one
it received. -/
def pdFindS (d : PeakDetector) (x y : List ℚ) : List (ℚ × ℚ × ℚ) × PeakDetector :=
  (pdFind d x y, d)

/-- The acceptance predicate of the amended C2 characterization: condition (a)
with the reduced guard radius, (b) the threshold against the local noise, and
(c) the relaxed prominence, with the neighbourhood windows taken immediately
adjacent to sample `i` (excluding it), as the code does. -/
def pdAccepts (d : PeakDetector) (y : List ℚ) (i : ℕ) : Prop :=
  (∀ j ∈ Finset.Icc 1 (narrowGuard d.guard),
      y.getD (i - j) 0 < y.getD i 0 ∧ y.getD (i + j) 0 < y.getD i 0)
  ∧ d.thresh_db ≤ y.getD i 0 - localNoise y i d.guard (noiseFloor y)
  ∧ d.prom_db * (4 / 5) ≤
      y.getD i 0 - max (leftMean y i d.guard (noiseFloor y)) (rightMean y i d.guard (noiseFloor y))

instance (d : PeakDetector) (y : List ℚ) (i : ℕ) : Decidable (pdAccepts d y i) := by
  unfold pdAccepts; infer_instance

/-- The list of triples the amended C2 characterization asserts `find`
returns: one triple per accepted interior index, in ascending index order. -/
def pdSpec (d : PeakDetector) (x y : List ℚ) : List (ℚ × ℚ × ℚ) :=
  (List.range' d.guard (y.length - 2 * d.guard)).filterMap fun i =>
    if pdAccepts d y i then
      some (x.getD i 0, y.getD i 0, localNoise y i d.guard (noiseFloor y))
    else none

/-- Modelled from the spec's words for claim C2 (not from the code): the left
neighbourhood window of size `guard+2` taken immediately OUTSIDE the reduced
guard radius, i.e. ending just before index `i - narrow`. -/
def leftNbClaim (y : List ℚ) (i g narrow : ℕ) : List ℚ :=
  (y.take (i - narrow)).drop (i - narrow - (g + 2))

/-- Modelled from the spec's words for claim C2: the right neighbourhood
window immediately outside the reduced guard radius, starting at `i+narrow+1`. -/
def rightNbClaim (y : List ℚ) (i g narrow : ℕ) : List ℚ :=
  (y.drop (i + narrow + 1)).take (g + 2)

/-- Modelled from the spec's words for claim C2: the acceptance test with the
claim's window placement (everything else as in the code). -/
def claimAccepts (d : PeakDetector) (y : List ℚ) (i : ℕ) : Bool :=
  let narrow := narrowGuard d.guard
  let lm := if leftNbClaim y i d.guard narrow = [] then noiseFloor y
            else listMean (leftNbClaim y i d.guard narrow)
  let rm := if rightNbClaim y i d.guard narrow = [] then noiseFloor y
            else listMean (rightNbClaim y i d.guard narrow)
  localMaxChk y i narrow
    && decide (d.thresh_db ≤ y.getD i 0 - min (min lm rm) (noiseFloor y))
    && decide (d.prom_db * (4 / 5) ≤ y.getD i 0 - max lm rm)

/-- Modelled from the spec's words for claim C2: the peak list the claim says
`find` returns (windows outside the reduced guard radius). -/
def claimFind (d : PeakDetector) (x y : List ℚ) : List (ℚ × ℚ × ℚ) :=
  if y.length < 2 * d.guard + 1 then []
  else
    (List.range' d.guard (y.length - 2 * d.guard)).filterMap fun i =>
      if claimAccepts d y i then
        let narrow := narrowGuard d.guard
        let lm := if leftNbClaim y i d.guard narrow = [] then noiseFloor y
                  else listMean (leftNbClaim y i d.guard narrow)
        let rm := if rightNbClaim y i d.guard narrow = [] then noiseFloor y
                  else listMean (rightNbClaim y i d.guard narrow)
        some (x.getD i 0, y.getD i 0, min (min lm rm) (noiseFloor y))
      else none

/-- Python sequence indexing `v[k]` for an `int` index `k` (list or 1-D numpy
array alike): a negative index wraps once (`v[len+k]` for `-len ≤ k < 0`);
an index outside `[-len, len)` raises IndexError, modelled as `none`. -/
def pyIdx (v : List ℚ) (k : ℤ) : Option ℚ :=
  if 0 ≤ k then
    if k < (v.length : ℤ) then some (v.getD k.toNat 0) else none
  else
    if -(v.length : ℤ) ≤ k then some (v.getD (k + (v.length : ℤ)).toNat 0) else none

/-- The inner `for j in range(1, narrow_guard+1)` loop of lines 415-418 with
Python's exact evaluation order: `y_dbm[i-j]` is read first (wrapping when
`i < j`), and `or` short-circuits, so `y_dbm[i+j]` is read only when
`y ≤ y_dbm[i-j]` fails; an out-of-range read raises IndexError (`none`). -/
def localMaxGo (y : List ℚ) (i : ℕ) : List ℕ → Option Bool
  | [] => some true
  | j :: rest =>
    match pyIdx y ((i : ℤ) - (j : ℤ)) with
    | none => none
    | some l =>
      if y.getD i 0 ≤ l then some false
      else
        match pyIdx y ((i : ℤ) + (j : ℤ)) with
        | none => none
        | some r => if y.getD i 0 ≤ r then some false else localMaxGo y i rest

/-- The local-maximum test of lines 414-418 under Python index semantics. -/
def localMaxChkE (y : List ℚ) (i narrow : ℕ) : Option Bool :=
  localMaxGo y i (List.range' 1 narrow)

/-- The loop of lines 410-443 under Python index semantics: an IndexError in
the local-maximum scan aborts `find` (`none`); at an accepted index, `x[i]`
is read (line 442) and may itself raise. The slice windows of lines 422-423
clamp and never raise. -/
def pdScanE (d : PeakDetector) (x y : List ℚ) (noise : ℚ) (narrow : ℕ) :
    List ℕ → Option (List (ℚ × ℚ × ℚ))
  | [] => some []
  | i :: rest =>
    match localMaxChkE y i narrow with
    | none => none
    | some lm =>
      if lm ∧ d.thresh_db ≤ y.getD i 0 - localNoise y i d.guard noise
          ∧ d.prom_db * (4 / 5) ≤
              y.getD i 0 - max (leftMean y i d.guard noise) (rightMean y i d.guard noise)
      then
        match pyIdx x (i : ℤ) with
        | none => none
        | some xi =>
          (pdScanE d x y noise narrow rest).map
            fun ps => (xi, y.getD i 0, localNoise y i d.guard noise) :: ps
      else pdScanE d x y noise narrow rest

/-- `PeakDetector.find` (lines 386-445) under Python's exact index semantics:
`none` models an IndexError escaping `find`. Out-of-range probes are possible
only for `guard = 0`, where `narrow_guard = 1 > guard`: there `y_dbm[i-1]`
wraps to the last sample at `i = 0`, and `y_dbm[i+1]` raises at the last
index when the left comparison fails. For `guard ≥ 1` the scan stays in
range and this equals `some (pdFind d x y)` (`pdFindE_eq_pdFind`). -/
def pdFindE (d : PeakDetector) (x y : List ℚ) : Option (List (ℚ × ℚ × ℚ)) :=
  if y.length < 2 * d.guard + 1 then some []
  else
    pdScanE d x y (noiseFloor y) (narrowGuard d.guard)
      (List.range' d.guard (y.length - 2 * d.guard))

/-! ## PowerMeterController.read_power (qijian/CT_P.py lines 190-237)

The pyvisa link is modelled by two oracles: `query c` is the value
`_try_query_float(c)` returns (`none` on any exception, empty response or
parse failure, lines 190-200), and `raw` is the parsed value of the final
`inst.read()` fallback (lines 224-235), `none` if it fails. The method is
entered with a connected instrument (the `self.inst is None` guard has
passed). -/

/-- The candidate commands, in the code's fixed priority order (line 214). -/
def pmCandidates : List String :=
  ["READ?", "MEAS:POW?", "POW:READ?", "READ:POWER?", "READ:POW?"]

/-- The loop of lines 216-222 followed by the raw-read fallback and the final
RuntimeError (lines 224-237); the error payload is `last_errs`, the list of
failed commands in order. -/
def readPowerAux (query : String → Option ℚ) (raw : Option ℚ) :
    List String → List String → Except (List String) ℚ
  | [], errs =>
    match raw with
    | some v => .ok v
    | none => .error errs
  | c :: rest, errs =>
    match query c with
    | some v => .ok v
    | none => readPowerAux query raw rest (errs ++ [c])

/-- `PowerMeterController.read_power` (lines 202-237). -/
def read_power (query : String → Option ℚ) (raw : Option ℚ) : Except (List String) ℚ :=
  readPowerAux query raw pmCandidates []

/-! ## File names, paths and the summary file

Python strings used as file names are modelled as `List Char`; the local file
system is a map from paths to file contents; a summary file is a list of rows,
`Row.header` for the header row and `Row.data` for one appended record
(the cell formatting of `_append_summary` is presentation only and carries the
same three values, so a row stores the raw values). -/

/-- One row of a summary CSV. -/
inductive Row where
  | header : Row
  | data : ℚ → Option ℚ → ℚ → Row
deriving DecidableEq

/-- The local file system: `none` means the path does not exist. -/
def FS : Type := List Char → Option (List Row)

/-- Point update of the file system. -/
def fsUpdate (fs : FS) (p : List Char) (v : Option (List Row)) : FS :=
  fun q => if q = p then v else fs q

/-- `if os.path.exists(p): os.remove(p)` (CT_P.py lines 386-387, 545-546,
CT_L.py lines 637-640; the remove itself is modelled as succeeding). -/
def fsRemove (fs : FS) (p : List Char) : FS :=
  if (fs p).isSome then fsUpdate fs p none else fs

/-- The characters of `".csv"`. -/
def csvSuffix : List Char := ['.', 'c', 's', 'v']

/-- `if not f.lower().endswith('.csv'): f += '.csv'` (CT_P.py lines 281-282,
379-380, 538-539, CT_L.py lines 566-567, 632-633). -/
def withCsv (f : List Char) : List Char :=
  if csvSuffix.isSuffixOf (f.map Char.toLower) then f else f ++ csvSuffix

/-- `os.path.join(dir, name)` with the path separator. -/
def joinPath (dir f : List Char) : List Char := dir ++ '/' :: f

/-- The summary path `_append_summary` resolves (CT_P.py lines 279-289,
CT_L.py lines 565-574), given the output directory already resolved from
`save_path` (both the runners' deletion blocks and `_append_summary` resolve
it by the same expression from the same argument). `grp` is `test_group`. -/
def summaryPath (dir : List Char) (grp : ℕ) (fname : Option (List Char)) : List Char :=
  match fname with
  | some f => joinPath dir (withCsv f)
  | none =>
    if grp = 1 then joinPath dir ("Test1_summary.csv".toList)
    else if grp = 2 then joinPath dir ("Test2_summary.csv".toList)
    else joinPath dir ("ct_summary_default.csv".toList)

/-- The write part of `_append_summary` (CT_P.py lines 291-299, CT_L.py lines
576-582): header if and only if the file does not exist, then one data row. -/
def appendSummary (fs : FS) (dir : List Char) (grp : ℕ) (fname : Option (List Char))
    (c : ℚ) (tm : Option ℚ) (v : ℚ) : FS :=
  let p := summaryPath dir grp fname
  match fs p with
  | none => fsUpdate fs p (some [Row.header, Row.data c tm v])
  | some rows => fsUpdate fs p (some (rows ++ [Row.data c tm v]))

/-! ## The runner environment and trace

`stop n` is the value of the shared `self._stop` flag at its `n`-th read
(the flag is written by another thread; each read is indexed in program
order). `temp n` / `curr n` are the `n`-th results of
`laser.get_temperature_C()` / `laser.get_current_mA()` (`none` = unreadable).
`meas n` is the `n`-th per-step measurement — `pm.read_power()` in CT_P,
`sa.measure_linewidth_kHz()` in CT_L — with `none` modelling a raised
exception. `laser` is whether `self.laser` is connected; instrument `set`
calls are modelled as succeeding. -/
structure Env where
  stop : ℕ → Bool
  temp : ℕ → Option ℚ
  curr : ℕ → Option ℚ
  meas : ℕ → Option ℚ
  laser : Bool

/-- Observable (and ghost) events of a run, in program order.
`stepStarted` marks the top of a sweep iteration after the boundary stop
check passed; `waitCancelled` marks a stabilization wait loop exiting because
its condition read `self._stop` as true; `timeoutLogged` is the
"未完全稳定，继续测量" log line; `errorLogged` is the per-step measurement
failure log line; `recorded` is a successful `_append_summary` call;
`stopBreak` is the boundary check observing the stop flag and breaking;
`fatalLogged` is the outer exception handler (or the step=0 early return)
logging and ending the run. -/
inductive Event where
  | stepStarted : ℚ → Event
  | waitCancelled : ℚ → Event
  | timeoutLogged : ℚ → Event
  | errorLogged : ℚ → Event
  | recorded : ℚ → ℚ → Event
  | stopBreak : Event
  | fatalLogged : Event
deriving DecidableEq

/-- Runner state threaded through a run: read counters for the stop flag,
the two readback channels and the measurement channel, the file system, and
the event trace. -/
structure RunSt where
  polls : ℕ
  cpolls : ℕ
  stops : ℕ
  reads : ℕ
  fs : FS
  events : List Event

/-- Result of a stabilization wait loop: `stable` is the loop's flag,
`sawStop` records whether the loop exited through its `not self._stop`
conjunct, `waited` is the final value of the loop's own `wait_time`
accumulator, `polls`/`stops` the advanced read counters. -/
structure WaitOut where
  stable : Bool
  sawStop : Bool
  waited : ℚ
  polls : ℕ
  stops : ℕ

/-- The stabilization wait loop
(CT_P.py lines 434-449, 564-579, 619-634; CT_L.py lines 755-768):
`while wait_time < max_wait and not stable and not self._stop:` — poll the
readback; `none` degrades to sleep-and-retry; within tolerance sets `stable`,
otherwise `wait_time += interval`. Condition conjuncts are evaluated with
Python's short-circuit, so the stop flag is read only after
`wait_time < max_wait` holds (and `stable` is still false). -/
def waitStable (stop : ℕ → Bool) (readback : ℕ → Option ℚ)
    (target thresh maxWait interval : ℚ) :
    ℕ → ℚ → ℕ → ℕ → WaitOut
  | 0, w, p, s => ⟨false, false, w, p, s⟩
  | fuel + 1, w, p, s =>
    if w < maxWait then
      if stop s then ⟨false, true, w, p, s + 1⟩
      else
        match readback p with
        | some v =>
          if |v - target| ≤ thresh then ⟨true, false, w, p + 1, s + 1⟩
          else waitStable stop readback target thresh maxWait interval fuel
            (w + interval) (p + 1) (s + 1)
        | none =>
          waitStable stop readback target thresh maxWait interval fuel
            (w + interval) (p + 1) (s + 1)
    else ⟨false, false, w, p, s⟩

/-- Fuel bound for a wait loop started at `wait_time = 0`. -/
def waitFuel (maxWait interval : ℚ) : ℕ := (⌊maxWait / interval⌋).toNat + 2

/-- The stabilization part of one group-1 sweep iteration (CT_P.py lines
422-459, CT_L.py lines 748-775): with a laser connected, set the temperature
and run the wait loop (threshold 0.1 °C, max wait `delay*5`, poll 0.5 s),
then make the post-loop `not stable and not self._stop` check that logs the
timeout (reading the stop flag again); without a laser, sleep only. Returns
the advanced poll/stop counters and the emitted events. -/
def stepWait (env : Env) (delay t : ℚ) (st : RunSt) : ℕ × ℕ × List Event :=
  if env.laser then
    let w := waitStable env.stop env.temp t (1 / 10) (delay * 5) (1 / 2)
      (waitFuel (delay * 5) (1 / 2)) 0 st.polls st.stops
    if w.stable then (w.polls, w.stops, ([] : List Event))
    else
      (w.polls, w.stops + 1,
        (if w.sawStop then [Event.waitCancelled t] else [])
          ++ (if env.stop w.stops then [] else [Event.timeoutLogged t]))
  else (st.polls, st.stops, ([] : List Event))

/-- One iteration of CT_P `run_group1`'s sweep body (lines 422-473), which is
also, line for line, CT_L `run_group1`'s sweep body (lines 748-787):
stabilize, then take the measurement; a measurement failure is logged and
skips the step, a success is appended to the summary. -/
def runStep (env : Env) (dir : List Char) (fname : Option (List Char))
    (delay cur t : ℚ) (st : RunSt) : RunSt :=
  let ws := stepWait env delay t st
  match env.meas st.reads with
  | none =>
    { st with
      polls := ws.1
      stops := ws.snd.fst
      reads := st.reads + 1
      events := st.events ++ Event.stepStarted t :: ws.snd.snd ++ [Event.errorLogged t] }
  | some p =>
    { st with
      polls := ws.1
      stops := ws.snd.fst
      reads := st.reads + 1
      fs := appendSummary st.fs dir 1 fname cur (some t) p
      events := st.events ++ Event.stepStarted t :: ws.snd.snd ++ [Event.recorded t p] }

/-- The `for t in temps:` loop of `run_group1` (CT_P.py lines 418-473,
CT_L.py lines 744-787), with the boundary stop check at the top of every
iteration. -/
def runLoop (env : Env) (dir : List Char) (fname : Option (List Char))
    (delay cur : ℚ) : List ℚ → RunSt → RunSt
  | [], st => st
  | t :: rest, st =>
    if env.stop st.stops then
      { st with
        stops := st.stops + 1
        events := st.events ++ [Event.stopBreak] }
    else
      runLoop env dir fname delay cur rest
        (runStep env dir fname delay cur t { st with stops := st.stops + 1 })

/-- Initial runner state over a given file system. -/
def initSt (fs : FS) : RunSt := ⟨0, 0, 0, 0, fs, []⟩

/-- CT_P `TestRunner.run_group1` (lines 365-476): delete the resolved summary
file when a summary file name is given (lines 371-388), then sweep the
temperatures from `_float_range` (a ValueError from it is caught by the
outer handler and ends the run). The current-setting preamble (lines
390-408) touches no modelled state; `cur` is the resulting
`current_for_temp`. -/
def runGroup1 (env : Env) (fs : FS) (dir : List Char) (fname : Option (List Char))
    (startT endT step delay cur : ℚ) : RunSt :=
  let fs1 := match fname with
    | some f => fsRemove fs (joinPath dir (withCsv f))
    | none => fs
  match float_range startT endT step with
  | none => { initSt fs1 with events := [Event.fatalLogged] }
  | some temps => runLoop env dir (fname.map withCsv) delay cur temps (initSt fs1)

/-- The stabilization part of one group-2 sweep iteration (CT_P.py lines
609-643): set the current and run the wait loop on the current readback
(threshold 1 mA, max wait `delay*3`, poll 0.3 s), with the post-loop
timeout check. -/
def stepWait2 (env : Env) (delay cur : ℚ) (st : RunSt) : ℕ × ℕ × List Event :=
  if env.laser then
    let w := waitStable env.stop env.curr cur 1 (delay * 3) (3 / 10)
      (waitFuel (delay * 3) (3 / 10)) 0 st.cpolls st.stops
    if w.stable then (w.polls, w.stops, ([] : List Event))
    else
      (w.polls, w.stops + 1,
        (if w.sawStop then [Event.waitCancelled cur] else [])
          ++ (if env.stop w.stops then [] else [Event.timeoutLogged cur]))
  else (st.cpolls, st.stops, ([] : List Event))

/-- One iteration of CT_P `run_group2`'s sweep body (lines 605-662):
stabilize the current, then read the power; any per-step failure is logged
and skips the step. -/
def runStep2 (env : Env) (dir : List Char) (fname : Option (List Char))
    (delay tempC cur : ℚ) (st : RunSt) : RunSt :=
  let ws := stepWait2 env delay cur st
  match env.meas st.reads with
  | none =>
    { st with
      cpolls := ws.1
      stops := ws.snd.fst
      reads := st.reads + 1
      events := st.events ++ Event.stepStarted cur :: ws.snd.snd ++ [Event.errorLogged cur] }
  | some p =>
    { st with
      cpolls := ws.1
      stops := ws.snd.fst
      reads := st.reads + 1
      fs := appendSummary st.fs dir 2 fname cur (some tempC) p
      events := st.events ++ Event.stepStarted cur :: ws.snd.snd ++ [Event.recorded cur p] }

/-- The `for cur in currents:` loop of CT_P `run_group2` (lines 605-662). -/
def runLoop2 (env : Env) (dir : List Char) (fname : Option (List Char))
    (delay tempC : ℚ) : List ℚ → RunSt → RunSt
  | [], st => st
  | c :: rest, st =>
    if env.stop st.stops then
      { st with
        stops := st.stops + 1
        events := st.events ++ [Event.stopBreak] }
    else
      runLoop2 env dir fname delay tempC rest
        (runStep2 env dir fname delay tempC c { st with stops := st.stops + 1 })

/-- The once-per-run temperature stabilization preamble of CT_P `run_group2`
(lines 549-584): with a laser connected, set the temperature and run the wait
loop (threshold 0.1 °C, max wait 60 s, poll 2 s) with the post-loop timeout
check; without a laser, nothing happens. -/
def group2Preamble (env : Env) (tempC : ℚ) (st0 : RunSt) : RunSt :=
  if env.laser then
    let w := waitStable env.stop env.temp tempC (1 / 10) 60 2 (waitFuel 60 2)
      0 st0.polls st0.stops
    if w.stable then { st0 with polls := w.polls, stops := w.stops }
    else
      { st0 with
        polls := w.polls
        stops := w.stops + 1
        events := st0.events
          ++ (if w.sawStop then [Event.waitCancelled tempC] else [])
          ++ (if env.stop w.stops then [] else [Event.timeoutLogged tempC]) }
  else st0

/-- CT_P `TestRunner.run_group2` (lines 523-676): delete the resolved summary
file when a name is given (lines 530-547), stabilize the temperature once
(lines 549-584), return early if `step_mA` is 0 (lines 589-591), then sweep
the currents built by the inline descending loop of lines 592-596. -/
def runGroup2 (env : Env) (fs : FS) (dir : List Char) (fname : Option (List Char))
    (startC stepC stopC tempC delay : ℚ) : RunSt :=
  let fs1 := match fname with
    | some f => fsRemove fs (joinPath dir (withCsv f))
    | none => fs
  let st1 := group2Preamble env tempC (initSt fs1)
  if stepC = 0 then { st1 with events := st1.events ++ [Event.fatalLogged] }
  else
    runLoop2 env dir (fname.map withCsv) delay tempC
      (floatRangeDescAux stopC |stepC| (descFuel stopC |stepC| startC) startC) st1

/-! ## CT_L run_group1: the fine sub-range and its runner -/

/-- The effective fine-range bounds and the warning flag of CT_L
`run_group1` (lines 666-681): `ceil(center+range)` and `floor(center-range)`,
each clamped to the outer sweep bounds, warning logged iff either bound
moved. -/
def ctlFineBounds (startT endT c r : ℚ) : ℚ × ℚ × Bool :=
  let fu : ℚ := (⌈c + r⌉ : ℤ)
  let fl : ℚ := (⌊c - r⌋ : ℤ)
  let minT := min startT endT
  let maxT := max startT endT
  let fu2 := if maxT < fu then maxT else fu
  let fl2 := if fl < minT then minT else fl
  (fl2, fu2, decide (¬fu2 = fu) || decide (¬fl2 = fl))

/-- The clamped fine bounds `_build_temps_with_fine` computes for itself
(CT_L.py lines 500-512; `round(·, 6)` applied to each raw bound, then clamp
to the outer bounds). Only used here to decide whether that helper raises. -/
def btwfBounds (startT endT c r : ℚ) : ℚ × ℚ :=
  let fu := pyRound6 (c + r)
  let fl := pyRound6 (c - r)
  let tmin := if endT < startT then endT else startT
  let tmax := if endT < startT then startT else endT
  let fu2 := if tmax < fu then tmax else fu
  let fl2 := if fl < tmin then tmin else fl
  (fl2, fu2)

/-- Whether the `_build_temps_with_fine` call at CT_L.py line 686 raises
ValueError (its returned list is discarded — lines 716-737 rebuild `temps` —
so only its raise behaviour matters): some executed inner `frange` has step
0, which happens iff `step = 0` and the corresponding coarse segment
condition (lines 524, 533, 540, 546) holds. -/
def btwfRaises (startT endT step c r : ℚ) : Bool :=
  let b := btwfBounds startT endT c r
  decide (step = 0) &&
    (if endT < startT then
      decide (b.2 + tol6 < startT) || decide (endT + tol6 < b.1 - step)
    else
      decide (startT < b.1 - tol6) || decide (b.2 + step < endT - tol6))

/-- The `temps` rebuild of CT_L `run_group1` (lines 716-735) from the
effective fine bounds: coarse upper segment, fine segment at step 0.1,
coarse lower segment (mirrored for ascending sweeps); a ValueError from any
`_float_range` call propagates (`none`). -/
def ctlBuildTemps (startT endT step fl fu : ℚ) : Option (List ℚ) :=
  if endT < startT then
    (if fu < startT then float_range startT fu step else some []).bind fun t1 =>
    (float_range fu fl (1 / 10)).bind fun ft =>
    (if endT < fl then float_range fl endT step else some []).map fun t3 =>
    t1 ++ ft ++ t3
  else
    (if startT < fl then float_range startT fl step else some []).bind fun t1 =>
    (float_range fl fu (1 / 10)).bind fun ft =>
    (if fu < endT then float_range fu endT step else some []).map fun t3 =>
    t1 ++ ft ++ t3

/-- CT_L `TestRunner.run_group1` (lines 622-848): delete the resolved summary
file (custom name or the default `Test1_summary.csv`, lines 626-642), then —
when the fine-range attributes are both set — compute the effective fine
bounds, call `_build_temps_with_fine` (result discarded, but a ValueError
from it aborts the run), rebuild `temps` from the effective bounds and run
the same sweep body as CT_P `run_group1`. When either fine attribute is
missing, line 688 reads the unbound `temps` and the resulting NameError is
caught by the outer handler: the run ends with nothing measured. The
fine-center trace/screenshot block (lines 789-844) touches instrument-side
storage only and is not part of the modelled state. -/
def ctlRunGroup1 (env : Env) (fs : FS) (dir : List Char) (fname : Option (List Char))
    (startT endT step delay cur : ℚ) (fineC fineR : Option ℚ) : RunSt :=
  let fs1 := fsRemove fs (summaryPath dir 1 fname)
  let st0 := initSt fs1
  match fineC, fineR with
  | some c, some r =>
    if btwfRaises startT endT step c r then { st0 with events := [Event.fatalLogged] }
    else
      match ctlBuildTemps startT endT step (ctlFineBounds startT endT c r).1
          (ctlFineBounds startT endT c r).snd.fst with
      | none => { st0 with events := [Event.fatalLogged] }
      | some temps => runLoop env dir (fname.map withCsv) delay cur temps st0
  | _, _ => { st0 with events := [Event.fatalLogged] }

/-! ## Trace projections used by the claims -/

/-- The setpoints whose sweep iteration started. -/
def startedOf (evs : List Event) : List ℚ :=
  evs.filterMap fun e => match e with | .stepStarted t => some t | _ => none

/-- The setpoints whose iteration ran to its end: either a summary record or
a logged measurement failure. -/
def finishedOf (evs : List Event) : List ℚ :=
  evs.filterMap fun e =>
    match e with
    | .errorLogged t => some t
    | .recorded t _ => some t
    | _ => none

/-- The (setpoint, value) pairs appended to the summary during the run. -/
def recordsOf (evs : List Event) : List (ℚ × ℚ) :=
  evs.filterMap fun e => match e with | .recorded t p => some (t, p) | _ => none

/-- The setpoints whose measurement failed and was logged. -/
def errorsOf (evs : List Event) : List ℚ :=
  evs.filterMap fun e => match e with | .errorLogged t => some t | _ => none

/-- Once a boundary check observes the stop flag, the loop exits at once:
nothing at all follows the `stopBreak` event. -/
def stopsAfterBreak (evs : List Event) : Prop :=
  ∀ pre post, evs = pre ++ Event.stopBreak :: post → post = []

/-- The records a stop-free sweep produces from the measurement stream
starting at read index `r0`: one record per setpoint whose measurement
succeeds, in sweep order. -/
def collectRecords (meas : ℕ → Option ℚ) (r0 : ℕ) : List ℚ → List (ℚ × ℚ)
  | [] => []
  | t :: rest =>
    (match meas r0 with | some p => [(t, p)] | none => [])
      ++ collectRecords meas (r0 + 1) rest

/-- The error log lines a stop-free sweep produces: one per setpoint whose
measurement fails. -/
def collectErrors (meas : ℕ → Option ℚ) (r0 : ℕ) : List ℚ → List ℚ
  | [] => []
  | t :: rest =>
    (match meas r0 with | some _ => [] | none => [t])
      ++ collectErrors meas (r0 + 1) rest

/-- The summary-file content determined by a run's records, for the group-1
runners (fixed current `cur`, varying temperature): absent when nothing was
recorded, else exactly one header followed by this run's rows. -/
def rowsFor (cur : ℚ) (recs : List (ℚ × ℚ)) : Option (List Row) :=
  if recs = [] then none
  else some (Row.header :: recs.map fun r => Row.data cur (some r.1) r.2)

/-- The summary-file content for group 2 (varying current, fixed temperature
`tempC`). -/
def rowsFor2 (tempC : ℚ) (recs : List (ℚ × ℚ)) : Option (List Row) :=
  if recs = [] then none
  else some (Row.header :: recs.map fun r => Row.data r.1 (some tempC) r.2)

/-! # Theorems -/

/-! ## Rounding bounds -/

theorem pyRoundHalfEven_ge (q : ℚ) : q - 1 / 2 ≤ (pyRoundHalfEven q : ℚ) := by
  unfold pyRoundHalfEven
  have h1 : ((⌊q⌋ : ℤ) : ℚ) ≤ q := Int.floor_le q
  have h2 : q < (⌊q⌋ : ℚ) + 1 := Int.lt_floor_add_one q
  split
  · linarith
  · split
    · push_cast; linarith
    · split <;> push_cast <;> linarith

theorem pyRoundHalfEven_le (q : ℚ) : (pyRoundHalfEven q : ℚ) ≤ q + 1 / 2 := by
  unfold pyRoundHalfEven
  have h1 : ((⌊q⌋ : ℤ) : ℚ) ≤ q := Int.floor_le q
  have h2 : q < (⌊q⌋ : ℚ) + 1 := Int.lt_floor_add_one q
  split
  · linarith
  · rename_i h3
    push_neg at h3
    split
    · push_cast; linarith
    · rename_i h4
      push_neg at h4
      have h5 : q - (⌊q⌋ : ℚ) = 1 / 2 := le_antisymm h4 h3
      split <;> push_cast <;> linarith

theorem pyRound6_ge (q : ℚ) : q - 1 / 2000000 ≤ pyRound6 q := by
  unfold pyRound6
  rw [le_div_iff₀ (by norm_num : (0 : ℚ) < 1000000)]
  have := pyRoundHalfEven_ge (q * 1000000)
  linarith

theorem pyRound6_le (q : ℚ) : pyRound6 q ≤ q + 1 / 2000000 := by
  unfold pyRound6
  rw [div_le_iff₀ (by norm_num : (0 : ℚ) < 1000000)]
  have := pyRoundHalfEven_le (q * 1000000)
  linarith

/-! ## The descending float_range loop -/

theorem floatRangeDescAux_mem_ge (stp s : ℚ) :
    ∀ fuel t, ∀ v ∈ floatRangeDescAux stp s fuel t, stp - eps9 - 1 / 2000000 ≤ v := by
  intro fuel
  induction fuel with
  | zero => intro t v hv; simp [floatRangeDescAux] at hv
  | succ n ih =>
    intro t v hv
    rw [floatRangeDescAux] at hv
    split at hv
    · rename_i hc
      rcases List.mem_cons.mp hv with h | h
      · subst h
        have := pyRound6_ge t
        linarith
      · exact ih _ v h
    · simp at hv

theorem floatRangeDescAux_head? (stp s : ℚ) :
    ∀ fuel t v, (floatRangeDescAux stp s fuel t).head? = some v → v = pyRound6 t := by
  intro fuel t v hv
  cases fuel with
  | zero => simp [floatRangeDescAux] at hv
  | succ n =>
    rw [floatRangeDescAux] at hv
    split at hv
    · simp at hv; exact hv.symm
    · simp at hv

theorem floatRangeDescAux_chain' (stp s : ℚ) (hs : 2 * tol6 < s) :
    ∀ fuel t, (floatRangeDescAux stp s fuel t).Chain' fun a b => tol6 < a - b := by
  intro fuel
  induction fuel with
  | zero => intro t; simp [floatRangeDescAux]
  | succ n ih =>
    intro t
    rw [floatRangeDescAux]
    split
    · rw [List.chain'_cons']
      refine ⟨?_, ih _⟩
      intro b hb
      have hb' := floatRangeDescAux_head? stp s n (t - s) b hb
      subst hb'
      have h1 := pyRound6_ge t
      have h2 := pyRound6_le (t - s)
      have : tol6 = 1 / 1000000 := rfl
      linarith
    · simp

/-- Fuel adequacy: one more unit of fuel than the loop's remaining iteration
count changes nothing, so the fuel chosen in `float_range` never truncates
the loop. -/
theorem floatRangeDescAux_fuel_succ (stp s : ℚ) (hs : 0 < s) :
    ∀ (fuel : ℕ) t, (t - stp + eps9) / s < (fuel : ℚ) →
      floatRangeDescAux stp s (fuel + 1) t = floatRangeDescAux stp s fuel t := by
  intro fuel
  induction fuel with
  | zero =>
    intro t ht
    rw [Nat.cast_zero] at ht
    have hnotc : ¬ stp - eps9 ≤ t := by
      intro h
      have hnum : (0 : ℚ) ≤ t - stp + eps9 := by linarith
      have := div_nonneg hnum hs.le
      linarith
    simp only [zero_add, floatRangeDescAux]
    rw [if_neg hnotc]
  | succ n ih =>
    intro t ht
    by_cases hc : stp - eps9 ≤ t
    · rw [floatRangeDescAux, if_pos hc]
      conv_rhs => rw [floatRangeDescAux, if_pos hc]
      rw [ih (t - s)]
      have hd : (t - s - stp + eps9) / s = (t - stp + eps9) / s - 1 := by
        field_simp
        ring
      rw [hd]
      push_cast at ht ⊢
      linarith
    · rw [floatRangeDescAux, if_neg hc, floatRangeDescAux, if_neg hc]

/-- Fuel adequacy for the ascending loop. -/
theorem floatRangeAscAux_fuel_succ (stp s : ℚ) (hs : 0 < s) :
    ∀ (fuel : ℕ) t, (stp - t + eps9) / s < (fuel : ℚ) →
      floatRangeAscAux stp s (fuel + 1) t = floatRangeAscAux stp s fuel t := by
  intro fuel
  induction fuel with
  | zero =>
    intro t ht
    rw [Nat.cast_zero] at ht
    have hnotc : ¬ t ≤ stp + eps9 := by
      intro h
      have hnum : (0 : ℚ) ≤ stp - t + eps9 := by linarith
      have := div_nonneg hnum hs.le
      linarith
    simp only [zero_add, floatRangeAscAux]
    rw [if_neg hnotc]
  | succ n ih =>
    intro t ht
    by_cases hc : t ≤ stp + eps9
    · rw [floatRangeAscAux, if_pos hc]
      conv_rhs => rw [floatRangeAscAux, if_pos hc]
      rw [ih (t + s)]
      have hd : (stp - (t + s) + eps9) / s = (stp - t + eps9) / s - 1 := by
        field_simp
        ring
      rw [hd]
      push_cast at ht ⊢
      linarith
    · rw [floatRangeAscAux, if_neg hc, floatRangeAscAux, if_neg hc]

theorem ascFuel_adequate (stp s t : ℚ) : (stp - t + eps9) / s < ascFuel stp s t := by
  unfold ascFuel
  set x := (stp - t + eps9) / s with hx
  have h1 : x < (⌊x⌋ : ℚ) + 1 := Int.lt_floor_add_one x
  have h2 : (⌊x⌋ : ℚ) ≤ ((⌊x⌋.toNat : ℤ) : ℚ) := by
    exact_mod_cast Int.self_le_toNat _
  push_cast at h2 ⊢
  linarith

/-- The fuel `float_range` passes to the descending loop strictly exceeds the
loop's remaining iteration bound. -/
theorem descFuel_adequate (stp s t : ℚ) : (t - stp + eps9) / s < descFuel stp s t := by
  unfold descFuel
  set x := (t - stp + eps9) / s with hx
  have h1 : x < (⌊x⌋ : ℚ) + 1 := Int.lt_floor_add_one x
  have h2 : (⌊x⌋ : ℚ) ≤ ((⌊x⌋.toNat : ℤ) : ℚ) := by
    exact_mod_cast Int.self_le_toNat _
  push_cast at h2 ⊢
  linarith

/-- C1: for the descending sweep 10 → 0 by 3 the generated sequence is
exactly [10, 7, 4, 1]; and for every descending sweep with nonzero step,
every generated value is at least `stop - 1e-9 - 5e-7` (the appended values
are the 6-decimal roundings of loop values bounded by `stop - 1e-9`, and the
rounding can move a value down by at most half a 1e-6 grid step), hence the
last value overshoots `stop` by at most `1e-9 + 5e-7`; and whenever
`|step| > 2e-6` no two generated values lie within the 1e-6 float
tolerance of each other. -/
theorem C1_float_range_descending :
    float_range 10 0 3 = some [10, 7, 4, 1]
    ∧ ∀ start stp step l, stp < start → step ≠ 0 →
        float_range start stp step = some l →
        (∀ v ∈ l, stp - eps9 - tol6 / 2 ≤ v)
        ∧ (∀ v, l.getLast? = some v → stp - v ≤ eps9 + tol6 / 2)
        ∧ (2 * tol6 < |step| → l.Pairwise fun a b => tol6 < |a - b|) := by
  constructor
  · norm_num [float_range, descFuel, eps9, Int.toNat_ofNat, floatRangeDescAux, pyRound6,
      pyRoundHalfEven, abs_of_pos, Int.fract]
  · intro start stp step l hlt hstep hl
    rw [float_range, if_neg hstep] at hl
    rw [if_neg (by push_neg; exact hlt.le)] at hl
    have hl' : l = floatRangeDescAux stp |step| (descFuel stp |step| start) start :=
      (Option.some_injective _ hl).symm
    subst hl'
    refine ⟨?_, ?_, ?_⟩
    · intro v hv
      have := floatRangeDescAux_mem_ge stp |step| _ start v hv
      have ht : tol6 / 2 = 1 / 2000000 := by norm_num [tol6]
      linarith
    · intro v hv
      have hmem : v ∈ floatRangeDescAux stp |step| (descFuel stp |step| start) start :=
        List.mem_of_mem_getLast? hv
      have := floatRangeDescAux_mem_ge stp |step| _ start v hmem
      have ht : tol6 / 2 = 1 / 2000000 := by norm_num [tol6]
      linarith
    · intro hbig
      have hch := floatRangeDescAux_chain' stp |step| hbig (descFuel stp |step| start) start
      haveI : IsTrans ℚ (fun a b => tol6 < a - b) := by
        constructor
        intro a b c hab hbc
        simp only at hab hbc ⊢
        have ht : (0 : ℚ) < tol6 := by norm_num [tol6]
        linarith
      have hpw := List.chain'_iff_pairwise.mp hch
      refine hpw.imp ?_
      intro a b hab
      have ht : (0 : ℚ) < tol6 := by norm_num [tol6]
      rw [abs_sub_comm, abs_of_neg (by linarith)]
      linarith

/-- Counterexample to C1 as stated: for `start = 2.4e-7`, `stop = 1.01e-7`,
`step = 4e-8` the generated sequence is [0, 0, 0, 0]; the value 0 is below
`stop - 1e-9`, the last value overshoots `stop` by more than `step`, and the
sequence holds two (indeed four) values equal to within the 1e-6 tolerance. -/
theorem C1_counterexample :
    float_range (3 / 12500000) (101 / 1000000000) (1 / 25000000) = some [0, 0, 0, 0]
    ∧ ¬ ((101 : ℚ) / 1000000000 - eps9 ≤ 0)
    ∧ ¬ ((101 : ℚ) / 1000000000 - 0 ≤ |(1 : ℚ) / 25000000|)
    ∧ ¬ ([(0 : ℚ), 0, 0, 0].Pairwise fun a b => ¬ |a - b| ≤ tol6) := by
  refine ⟨?_, by norm_num [eps9], by rw [abs_of_pos] <;> norm_num, ?_⟩
  · norm_num [float_range, descFuel, eps9, Int.toNat_ofNat, floatRangeDescAux, pyRound6,
      pyRoundHalfEven, abs_of_pos, Int.fract]
  · intro h
    have := (List.pairwise_cons.mp h).1 0 (by simp)
    simp [tol6] at this

/-- Witness for the amended C1 theorem at the sweep 10 → 0 by 3. -/
theorem C1_witness :
    (∀ v ∈ [(10 : ℚ), 7, 4, 1], (0 : ℚ) - eps9 - tol6 / 2 ≤ v)
    ∧ (∀ v, [(10 : ℚ), 7, 4, 1].getLast? = some v → (0 : ℚ) - v ≤ eps9 + tol6 / 2)
    ∧ (2 * tol6 < |(3 : ℚ)| → [(10 : ℚ), 7, 4, 1].Pairwise fun a b => tol6 < |a - b|) :=
  C1_float_range_descending.2 10 0 3 [10, 7, 4, 1] (by norm_num) (by norm_num)
    C1_float_range_descending.1

/-! ## PeakDetector theorems -/

theorem localMaxChk_iff (y : List ℚ) (i narrow : ℕ) :
    localMaxChk y i narrow = true ↔
      ∀ j ∈ Finset.Icc 1 narrow,
        y.getD (i - j) 0 < y.getD i 0 ∧ y.getD (i + j) 0 < y.getD i 0 := by
  unfold localMaxChk
  rw [List.all_eq_true]
  constructor
  · intro h j hj
    have hj' := Finset.mem_Icc.mp hj
    have := h j (List.mem_range'_1.mpr ⟨hj'.1, by omega⟩)
    simpa using this
  · intro h j hj
    have hj' := List.mem_range'_1.mp hj
    have := h j (Finset.mem_Icc.mpr ⟨hj'.1, by omega⟩)
    simpa using this

theorem pdScan_eq_filterMap (d : PeakDetector) (x y : List ℚ) (l : List ℕ) :
    pdScan d x y (noiseFloor y) (narrowGuard d.guard) l
      = l.filterMap fun i =>
          if pdAccepts d y i then
            some (x.getD i 0, y.getD i 0, localNoise y i d.guard (noiseFloor y))
          else none := by
  induction l with
  | nil => rfl
  | cons i rest ih =>
    have hiff : (localMaxChk y i (narrowGuard d.guard) = true
        ∧ d.thresh_db ≤ y.getD i 0 - localNoise y i d.guard (noiseFloor y)
        ∧ d.prom_db * (4 / 5) ≤
            y.getD i 0 - max (leftMean y i d.guard (noiseFloor y))
              (rightMean y i d.guard (noiseFloor y)))
        ↔ pdAccepts d y i := by
      unfold pdAccepts
      rw [localMaxChk_iff]
    rw [pdScan, List.filterMap_cons]
    by_cases h : pdAccepts d y i
    · rw [if_pos (hiff.mpr h), if_pos h, ih]
    · rw [if_neg (fun hc => h (hiff.mp hc)), if_neg h, ih]

/-- The clamped core equals the filterMap characterization, on every trace. -/
theorem pdFind_eq_pdSpec (d : PeakDetector) (x y : List ℚ) :
    pdFind d x y = pdSpec d x y := by
  unfold pdFind pdSpec
  split
  · rename_i h
    have h0 : y.length - 2 * d.guard = 0 := by omega
    rw [h0]
    rfl
  · exact pdScan_eq_filterMap d x y _

/-- Python indexing at an in-range nonnegative index reads the sample there. -/
theorem pyIdx_of_nonneg (v : List ℚ) (k : ℤ) (h0 : 0 ≤ k)
    (hlt : k < (v.length : ℤ)) : pyIdx v k = some (v.getD k.toNat 0) := by
  unfold pyIdx
  rw [if_pos h0, if_pos hlt]

/-- When every probed index is in range, the faithful local-maximum loop
returns (without raising) exactly the clamped check's verdict. -/
theorem localMaxGo_eq (y : List ℚ) (i : ℕ) :
    ∀ js : List ℕ, (∀ j ∈ js, j ≤ i ∧ i + j < y.length) →
      localMaxGo y i js
        = some (js.all fun j =>
            decide (y.getD (i - j) 0 < y.getD i 0)
              && decide (y.getD (i + j) 0 < y.getD i 0)) := by
  intro js
  induction js with
  | nil => intro _; rfl
  | cons j rest ih =>
    intro hv
    obtain ⟨hj, hij⟩ := hv j (List.mem_cons_self j rest)
    have hrest : ∀ a ∈ rest, a ≤ i ∧ i + a < y.length :=
      fun a ha => hv a (List.mem_cons_of_mem j ha)
    rw [localMaxGo, pyIdx_of_nonneg y ((i : ℤ) - (j : ℤ)) (by omega) (by omega)]
    dsimp only
    rw [show (((i : ℤ) - (j : ℤ))).toNat = i - j by omega]
    by_cases hl : y.getD i 0 ≤ y.getD (i - j) 0
    · rw [if_pos hl]
      have hd : decide (y.getD (i - j) 0 < y.getD i 0) = false :=
        decide_eq_false (not_lt.mpr hl)
      simp only [List.all_cons]
      rw [hd, Bool.false_and, Bool.false_and]
    · rw [if_neg hl, pyIdx_of_nonneg y ((i : ℤ) + (j : ℤ)) (by omega) (by omega)]
      dsimp only
      rw [show (((i : ℤ) + (j : ℤ))).toNat = i + j by omega]
      push_neg at hl
      have hd1 : decide (y.getD (i - j) 0 < y.getD i 0) = true := decide_eq_true hl
      by_cases hr : y.getD i 0 ≤ y.getD (i + j) 0
      · rw [if_pos hr]
        have hd2 : decide (y.getD (i + j) 0 < y.getD i 0) = false :=
          decide_eq_false (not_lt.mpr hr)
        simp only [List.all_cons]
        rw [hd1, hd2, Bool.true_and, Bool.false_and]
      · rw [if_neg hr, ih hrest]
        push_neg at hr
        have hd2 : decide (y.getD (i + j) 0 < y.getD i 0) = true := decide_eq_true hr
        simp only [List.all_cons]
        rw [hd1, hd2, Bool.true_and, Bool.true_and]

/-- The faithful local-maximum test agrees with the clamped one whenever the
probe radius stays inside the trace. -/
theorem localMaxChkE_eq (y : List ℚ) (i narrow : ℕ)
    (h1 : narrow ≤ i) (h2 : i + narrow < y.length) :
    localMaxChkE y i narrow = some (localMaxChk y i narrow) := by
  unfold localMaxChkE localMaxChk
  apply localMaxGo_eq
  intro j hj
  have hj' := List.mem_range'_1.mp hj
  exact ⟨by omega, by omega⟩

/-- The faithful loop body agrees with the clamped one over any index list
whose probes all stay in range (and whose `x[i]` reads are valid). -/
theorem pdScanE_eq (d : PeakDetector) (x y : List ℚ) (noise : ℚ) (narrow : ℕ) :
    ∀ idxs : List ℕ,
      (∀ i ∈ idxs, narrow ≤ i ∧ i + narrow < y.length ∧ i < x.length) →
      pdScanE d x y noise narrow idxs = some (pdScan d x y noise narrow idxs) := by
  intro idxs
  induction idxs with
  | nil => intro _; rfl
  | cons i rest ih =>
    intro hv
    obtain ⟨h1, h2, h3⟩ := hv i (List.mem_cons_self i rest)
    have hrest : ∀ a ∈ rest, narrow ≤ a ∧ a + narrow < y.length ∧ a < x.length :=
      fun a ha => hv a (List.mem_cons_of_mem i ha)
    rw [pdScanE, pdScan, localMaxChkE_eq y i narrow h1 h2]
    dsimp only
    by_cases hc : (localMaxChk y i narrow = true
        ∧ d.thresh_db ≤ y.getD i 0 - localNoise y i d.guard noise
        ∧ d.prom_db * (4 / 5) ≤
            y.getD i 0 - max (leftMean y i d.guard noise) (rightMean y i d.guard noise))
    · rw [if_pos hc, if_pos hc,
        pyIdx_of_nonneg x (i : ℤ) (by omega) (by exact_mod_cast h3)]
      dsimp only
      rw [show (((i : ℕ) : ℤ)).toNat = i by omega, ih hrest]
      rfl
    · rw [if_neg hc, if_neg hc, ih hrest]

/-- For `guard ≥ 1` the scan's probes `i ± j`, `j ≤ max(1, guard/2) ≤ guard`,
stay inside `[0, len)` for every interior index `i`, so the faithful `find`
returns without error and agrees with the clamped core. -/
theorem pdFindE_eq_pdFind (d : PeakDetector) (x y : List ℚ)
    (hg : 1 ≤ d.guard) (hxy : y.length ≤ x.length) :
    pdFindE d x y = some (pdFind d x y) := by
  unfold pdFindE pdFind
  by_cases hshort : y.length < 2 * d.guard + 1
  · rw [if_pos hshort, if_pos hshort]
  · rw [if_neg hshort, if_neg hshort]
    push_neg at hshort
    have hn : narrowGuard d.guard ≤ d.guard := by
      unfold narrowGuard
      rw [max_le_iff]
      exact ⟨hg, Nat.div_le_self _ _⟩
    apply pdScanE_eq
    intro i hi
    have hi' := List.mem_range'_1.mp hi
    exact ⟨by omega, by omega, by omega⟩

/-- At `guard = 0` the faithful embedding reproduces Python's wraparound: on
`y = [5, 0, 0]` the scan at `i = 0` compares `y[0]` against the wrapped
`y[-1] = y[2]`, accepts the peak, and at `i = 2` the left comparison
`y[2] ≤ y[1]` holds, short-circuiting the out-of-range right probe, so `find`
returns `[(0, 5, 0)]` without error — while the clamped core returns `[]`. -/
theorem pdFindE_guard0_wrap :
    pdFindE ⟨1, 1, 0⟩ [0, 1, 2] [5, 0, 0] = some [(0, 5, 0)]
    ∧ pdFind ⟨1, 1, 0⟩ [0, 1, 2] [5, 0, 0] = [] := by
  constructor
  · norm_num [pdFindE, pdScanE, localMaxChkE, localMaxGo, pyIdx, noiseFloor, edgePoints,
      narrowGuard, localNoise, leftMean, rightMean, leftNb, rightNb, listMean,
      List.range', min_def, max_def, List.cons_ne_nil, Int.toNat_ofNat,
      show ((2 : Int)).toNat = 2 from rfl]
  · norm_num [pdFind, pdScan, localMaxChk, noiseFloor, edgePoints, narrowGuard, localNoise,
      leftMean, rightMean, leftNb, rightNb, listMean, List.range', min_def, max_def,
      List.cons_ne_nil]

/-- At `guard = 0` the right probe `y[i+1]` at the last index raises
IndexError when the left comparison fails: on `y = [0, 5]` the faithful
`find` aborts. -/
theorem pdFindE_guard0_raises : pdFindE ⟨1, 1, 0⟩ [0, 1] [0, 5] = none := by
  norm_num [pdFindE, pdScanE, localMaxChkE, localMaxGo, pyIdx, noiseFloor, edgePoints,
    narrowGuard, localNoise, leftMean, rightMean, leftNb, rightNb, listMean,
    List.range', min_def, max_def, List.cons_ne_nil, Int.toNat_ofNat]

/-- C2 (amended): for detectors with `guard ≥ 1` — so the interior scan's
probes `y[i±j]`, `j ≤ max(1, guard/2) ≤ guard`, stay in range, ruling out the
negative-index wraparound and right-edge IndexError that Python's indexing
admits at `guard = 0` — and traces with `len(x) ≥ len(y)`,
`PeakDetector.find` returns without error exactly the triples
`(x[i], y[i], local_noise)` for the interior indices `i` in
`[guard, len(y)-guard)` satisfying (a) strict local maximality within the
reduced guard radius `max(1, guard/2)`, (b) `y[i] - local_noise ≥
threshold_db` and (c) `y[i] - max(left_mean, right_mean) ≥ prominence_db *
0.8`, where the neighbourhood means are taken over windows of size up to
`guard+2` immediately adjacent to `i` (excluding `i` itself, truncated at the
trace edges), not over windows outside the reduced guard radius. -/
theorem C2_find_characterization (d : PeakDetector) (x y : List ℚ)
    (hg : 1 ≤ d.guard) (hxy : y.length ≤ x.length) :
    pdFindE d x y = some (pdSpec d x y) := by
  rw [pdFindE_eq_pdFind d x y hg hxy, pdFind_eq_pdSpec d x y]

/-- Witness for the amended C2 at a concrete guard-1 detector and trace. -/
theorem C2_witness :
    1 ≤ (PeakDetector.mk 1 1 1).guard
    ∧ ([0, 9, 0] : List ℚ).length ≤ ([0, 1, 2] : List ℚ).length
    ∧ pdFindE ⟨1, 1, 1⟩ [0, 1, 2] [0, 9, 0]
        = some (pdSpec ⟨1, 1, 1⟩ [0, 1, 2] [0, 9, 0]) :=
  ⟨by decide, by decide,
    C2_find_characterization ⟨1, 1, 1⟩ [0, 1, 2] [0, 9, 0] (by decide) (by decide)⟩

/-- Counterexample to C2 as stated: on the trace
`y = [0,0,0,0.9,1,0.9,0,0,0]` with `threshold = prominence = 1` and
`guard = 2`, the code's `find` returns no peaks (its adjacent windows contain
the 0.9 shoulders, so `y[4] - local_noise = 0.775 < 1`), while the claim's
rule — windows immediately outside the reduced guard radius — accepts index 4
and predicts the triple `(4, 1, 0)`. -/
theorem C2_counterexample :
    pdFind ⟨1, 1, 2⟩ [0, 1, 2, 3, 4, 5, 6, 7, 8] [0, 0, 0, 9/10, 1, 9/10, 0, 0, 0] = []
    ∧ claimFind ⟨1, 1, 2⟩ [0, 1, 2, 3, 4, 5, 6, 7, 8] [0, 0, 0, 9/10, 1, 9/10, 0, 0, 0]
        = [(4, 1, 0)] := by
  constructor
  · norm_num [pdFind, pdScan, noiseFloor, edgePoints, narrowGuard, localMaxChk, localNoise,
      leftMean, rightMean, leftNb, rightNb, listMean, List.range', min_def, max_def,
      List.cons_ne_nil]
  · norm_num [claimFind, claimAccepts, noiseFloor, edgePoints, narrowGuard, localMaxChk,
      leftNbClaim, rightNbClaim, listMean, List.range', min_def, max_def, List.cons_ne_nil,
      List.filterMap_cons, List.filterMap_nil]

/-- C8: a trace shorter than `2*guard+1` samples yields no peaks (and no
error: `find` is total on such traces, returning at line 387-388 before any
indexing takes place). -/
theorem C8_short_trace (d : PeakDetector) (x y : List ℚ)
    (h : y.length < 2 * d.guard + 1) : pdFind d x y = [] := by
  rw [pdFind, if_pos h]

theorem C8_witness : pdFind ⟨1, 1, 10⟩ [1, 2, 3] [5, 6, 7] = [] :=
  C8_short_trace ⟨1, 1, 10⟩ [1, 2, 3] [5, 6, 7] (by norm_num)

/-- C9: `find` is deterministic and leaves the detector object unchanged —
two consecutive calls on the identical trace return identical peak lists, and
the detector state after each call is the state before it. -/
theorem C9_find_idempotent (d : PeakDetector) (x y : List ℚ) :
    (pdFindS d x y).2 = d
    ∧ (pdFindS (pdFindS d x y).2 x y).1 = (pdFindS d x y).1
    ∧ (pdFindS (pdFindS d x y).2 x y).2 = d :=
  ⟨rfl, rfl, rfl⟩

/-! ## read_power theorems -/

/-- Counterexample to C7 as stated: in an environment where every one of the
five candidate commands fails to parse, but the final raw `inst.read()`
fallback parses as 1.23, `read_power` returns 1.23 — it does not raise even
though every variant failed, so "raises if and only if every variant fails"
is false. -/
theorem C7_counterexample :
    read_power (fun _ => none) (some (123 / 100)) = Except.ok (123 / 100)
    ∧ ∀ c ∈ pmCandidates, (fun _ => (none : Option ℚ)) c = none :=
  ⟨rfl, fun _ _ => rfl⟩

/-- C7 (amended): `read_power` tries READ?, MEAS:POW?, POW:READ?,
READ:POWER?, READ:POW? in this fixed order and returns the first response
that parses as a float; if all five fail it attempts one raw read and returns
its parsed value; it raises (with the list of failed commands) if and only if
all five variants AND the raw-read fallback fail. -/
theorem C7_read_power (query : String → Option ℚ) (raw : Option ℚ) :
    (read_power query raw =
      match pmCandidates.findSome? query with
      | some v => Except.ok v
      | none =>
        match raw with
        | some v => Except.ok v
        | none => Except.error pmCandidates)
    ∧ ((∃ e, read_power query raw = Except.error e) ↔
        (∀ c ∈ pmCandidates, query c = none) ∧ raw = none) := by
  unfold read_power pmCandidates
  cases h1 : query "READ?" <;>
    cases h2 : query "MEAS:POW?" <;>
    cases h3 : query "POW:READ?" <;>
    cases h4 : query "READ:POWER?" <;>
    cases h5 : query "READ:POW?" <;>
    cases hr : raw <;>
    simp [readPowerAux, List.findSome?, h1, h2, h3, h4, h5, hr]

/-! ## Fine-range clamping (C6) -/

/-- C6: with outer bounds [15, 36] (either sweep direction) and fine
center 25, half-width 20 (requesting [5, 45]), the effective fine interval is
clamped to [15, 36] and the warning is logged; and in general, whenever
`center + half_width` exceeds the upper outer bound the effective fine upper
bound is clamped to it, and whenever `center - half_width` falls below the
lower outer bound the effective fine lower bound is clamped to it. -/
theorem C6_fine_range_clamping :
    ctlFineBounds 15 36 25 20 = (15, 36, true)
    ∧ ctlFineBounds 36 15 25 20 = (15, 36, true)
    ∧ (∀ s e c r, max s e < c + r → (ctlFineBounds s e c r).snd.fst = max s e)
    ∧ (∀ s e c r, c - r < min s e → (ctlFineBounds s e c r).fst = min s e) := by
  refine ⟨?_, ?_, ?_, ?_⟩
  · simp only [ctlFineBounds]
    norm_num
  · simp only [ctlFineBounds]
    norm_num
  · intro s e c r h
    have hc : max s e < ((⌈c + r⌉ : ℤ) : ℚ) := lt_of_lt_of_le h (Int.le_ceil _)
    simp only [ctlFineBounds]
    rw [if_pos hc]
  · intro s e c r h
    have hc : ((⌊c - r⌋ : ℤ) : ℚ) < min s e := lt_of_le_of_lt (Int.floor_le _) h
    simp only [ctlFineBounds]
    rw [if_pos hc]

/-- Witness for the general clamping clauses of C6 at concrete bounds. -/
theorem C6_witness :
    (ctlFineBounds 10 20 100 5).snd.fst = max 10 20
    ∧ (ctlFineBounds 10 20 (-100) 5).fst = min 10 20 := by
  have h := C6_fine_range_clamping
  exact ⟨((h.2).2).1 10 20 100 5 (by norm_num), ((h.2).2).2 10 20 (-100) 5 (by norm_num)⟩

/-! ## Path and file-system facts -/

theorem fsUpdate_self (fs : FS) (p : List Char) (v : Option (List Row)) :
    fsUpdate fs p v p = v := by
  unfold fsUpdate
  rw [if_pos rfl]

theorem fsRemove_self (fs : FS) (p : List Char) : fsRemove fs p p = none := by
  unfold fsRemove
  split
  · exact fsUpdate_self fs p none
  · rename_i h
    exact Option.not_isSome_iff_eq_none.mp h

theorem csvSuffix_toLower : List.map Char.toLower csvSuffix = csvSuffix := by decide

theorem withCsv_idem (f : List Char) : withCsv (withCsv f) = withCsv f := by
  unfold withCsv
  split
  · rfl
  · rw [if_pos]
    rw [List.map_append, csvSuffix_toLower]
    exact List.isSuffixOf_iff_suffix.mpr (List.suffix_append _ _)

/-! ## The stabilization wait loop -/

theorem waitFuel_adequate (maxWait interval : ℚ) :
    maxWait / interval < (waitFuel maxWait interval : ℚ) := by
  unfold waitFuel
  set x := maxWait / interval with hx
  have h1 : x < (⌊x⌋ : ℚ) + 1 := Int.lt_floor_add_one x
  have h2 : (⌊x⌋ : ℚ) ≤ ((⌊x⌋.toNat : ℤ) : ℚ) := by
    exact_mod_cast Int.self_le_toNat _
  push_cast at h2 ⊢
  linarith

/-- With always-off readbacks (and `none` readbacks) and the stop flag never
set, the wait loop exits with `stable = false` and a final `wait_time` in
`[maxWait, maxWait + interval)`. -/
theorem waitStable_timeout (stop : ℕ → Bool) (rb : ℕ → Option ℚ)
    (target thresh maxWait interval : ℚ)
    (hint : 0 < interval)
    (hrb : ∀ n v, rb n = some v → thresh < |v - target|)
    (hstop : ∀ n, stop n = false) :
    ∀ (fuel : ℕ) (w : ℚ) (p s : ℕ),
      (maxWait - w) / interval < (fuel : ℚ) → w < maxWait + interval →
      (waitStable stop rb target thresh maxWait interval fuel w p s).stable = false
      ∧ (waitStable stop rb target thresh maxWait interval fuel w p s).sawStop = false
      ∧ maxWait ≤ (waitStable stop rb target thresh maxWait interval fuel w p s).waited
      ∧ (waitStable stop rb target thresh maxWait interval fuel w p s).waited
          < maxWait + interval := by
  intro fuel
  induction fuel with
  | zero =>
    intro w p s hf hw
    rw [Nat.cast_zero] at hf
    have hneg : maxWait - w < 0 := by
      by_contra hc
      push_neg at hc
      have := div_nonneg hc hint.le
      linarith
    exact ⟨rfl, rfl, by simp only [waitStable]; linarith, hw⟩
  | succ n ih =>
    intro w p s hf hw
    by_cases hcond : w < maxWait
    · rw [waitStable, if_pos hcond, hstop s]
      have hnext : (maxWait - (w + interval)) / interval < (n : ℚ) := by
        have hd : (maxWait - (w + interval)) / interval = (maxWait - w) / interval - 1 := by
          field_simp
          ring
        rw [hd]
        push_cast at hf
        linarith
      have hwnext : w + interval < maxWait + interval := by linarith
      cases hv : rb p with
      | none =>
        simp only [Bool.false_eq_true, if_false]
        exact ih (w + interval) (p + 1) (s + 1) hnext hwnext
      | some v =>
        have hfar := hrb p v hv
        simp only [Bool.false_eq_true, if_false]
        rw [if_neg (not_le.mpr hfar)]
        exact ih (w + interval) (p + 1) (s + 1) hnext hwnext
    · rw [waitStable, if_neg hcond]
      push_neg at hcond
      exact ⟨rfl, rfl, hcond, hw⟩

/-! ## Shape of one sweep iteration -/

theorem stepWait_mid (env : Env) (delay t : ℚ) (st : RunSt) :
    ∀ e ∈ (stepWait env delay t st).snd.snd,
      e = Event.waitCancelled t ∨ e = Event.timeoutLogged t := by
  intro e he
  unfold stepWait at he
  split at he
  · dsimp only at he
    split at he
    · simp at he
    · simp only at he
      rcases List.mem_append.mp he with h | h
      · left
        split at h <;> simp at h
        exact h
      · right
        split at h <;> simp at h
        exact h
  · simp at he

theorem stepWait2_mid (env : Env) (delay cur : ℚ) (st : RunSt) :
    ∀ e ∈ (stepWait2 env delay cur st).snd.snd,
      e = Event.waitCancelled cur ∨ e = Event.timeoutLogged cur := by
  intro e he
  unfold stepWait2 at he
  split at he
  · dsimp only at he
    split at he
    · simp at he
    · simp only at he
      rcases List.mem_append.mp he with h | h
      · left
        split at h <;> simp at h
        exact h
      · right
        split at h <;> simp at h
        exact h
  · simp at he

theorem runStep_shape (env : Env) (dir : List Char) (fname : Option (List Char))
    (delay cur t : ℚ) (st : RunSt) :
    ∃ mid : List Event,
      (∀ e ∈ mid, e = Event.waitCancelled t ∨ e = Event.timeoutLogged t)
      ∧ (runStep env dir fname delay cur t st).events
          = st.events ++ Event.stepStarted t ::
              (mid ++ [match env.meas st.reads with
                       | some p => Event.recorded t p
                       | none => Event.errorLogged t])
      ∧ (runStep env dir fname delay cur t st).reads = st.reads + 1
      ∧ (runStep env dir fname delay cur t st).fs
          = (match env.meas st.reads with
             | some p => appendSummary st.fs dir 1 fname cur (some t) p
             | none => st.fs) := by
  refine ⟨(stepWait env delay t st).snd.snd, stepWait_mid env delay t st, ?_, ?_, ?_⟩ <;>
    · unfold runStep
      rcases env.meas st.reads with _ | p <;> simp

theorem runStep2_shape (env : Env) (dir : List Char) (fname : Option (List Char))
    (delay tempC cur : ℚ) (st : RunSt) :
    ∃ mid : List Event,
      (∀ e ∈ mid, e = Event.waitCancelled cur ∨ e = Event.timeoutLogged cur)
      ∧ (runStep2 env dir fname delay tempC cur st).events
          = st.events ++ Event.stepStarted cur ::
              (mid ++ [match env.meas st.reads with
                       | some p => Event.recorded cur p
                       | none => Event.errorLogged cur])
      ∧ (runStep2 env dir fname delay tempC cur st).reads = st.reads + 1
      ∧ (runStep2 env dir fname delay tempC cur st).fs
          = (match env.meas st.reads with
             | some p => appendSummary st.fs dir 2 fname cur (some tempC) p
             | none => st.fs) := by
  refine ⟨(stepWait2 env delay cur st).snd.snd, stepWait2_mid env delay cur st, ?_, ?_, ?_⟩ <;>
    · unfold runStep2
      rcases env.meas st.reads with _ | p <;> simp

/-! ## Trace projections over one iteration -/

theorem startedOf_append (l l' : List Event) :
    startedOf (l ++ l') = startedOf l ++ startedOf l' := List.filterMap_append l l' _

theorem finishedOf_append (l l' : List Event) :
    finishedOf (l ++ l') = finishedOf l ++ finishedOf l' := List.filterMap_append l l' _

theorem recordsOf_append (l l' : List Event) :
    recordsOf (l ++ l') = recordsOf l ++ recordsOf l' := List.filterMap_append l l' _

theorem errorsOf_append (l l' : List Event) :
    errorsOf (l ++ l') = errorsOf l ++ errorsOf l' := List.filterMap_append l l' _

theorem mid_filterMap_nil {α : Type} (f : Event → Option α) (t : ℚ) (mid : List Event)
    (hmid : ∀ e ∈ mid, e = Event.waitCancelled t ∨ e = Event.timeoutLogged t)
    (hf1 : f (Event.waitCancelled t) = none) (hf2 : f (Event.timeoutLogged t) = none) :
    mid.filterMap f = [] := by
  rw [List.filterMap_eq_nil]
  intro e he
  rcases hmid e he with h | h <;> subst h <;> assumption

theorem filterMap_step_chunk {α : Type} (f : Event → Option α) (evs : List Event) (t : ℚ)
    (mid : List Event) (hmid : ∀ e ∈ mid, e = Event.waitCancelled t ∨ e = Event.timeoutLogged t)
    (hf1 : f (Event.waitCancelled t) = none) (hf2 : f (Event.timeoutLogged t) = none)
    (X : Event) :
    List.filterMap f (evs ++ Event.stepStarted t :: (mid ++ [X]))
      = List.filterMap f evs ++ ((f (Event.stepStarted t)).toList ++ (f X).toList) := by
  rw [List.filterMap_append]
  congr 1
  rw [List.filterMap_cons, List.filterMap_append, mid_filterMap_nil f t mid hmid hf1 hf2]
  cases hfs : f (Event.stepStarted t) <;>
    cases hfx : f X <;>
    simp [List.filterMap_cons, hfs, hfx]

/-! ## The group-1 sweep loop, stop flag never set (C5) -/

/-- With the stop flag never set, the group-1 sweep runs every setpoint:
each setpoint's iteration starts, each successful measurement yields exactly
one record (in sweep order), each failed measurement yields exactly one
logged error, and the measurement channel advances one read per setpoint. -/
theorem runLoop_no_stop (env : Env) (dir : List Char) (fname : Option (List Char))
    (d cur : ℚ) (hstop : ∀ n, env.stop n = false) :
    ∀ (temps : List ℚ) (st : RunSt),
      startedOf (runLoop env dir fname d cur temps st).events = startedOf st.events ++ temps
      ∧ recordsOf (runLoop env dir fname d cur temps st).events
          = recordsOf st.events ++ collectRecords env.meas st.reads temps
      ∧ errorsOf (runLoop env dir fname d cur temps st).events
          = errorsOf st.events ++ collectErrors env.meas st.reads temps := by
  intro temps
  induction temps with
  | nil => intro st; simp [runLoop, collectRecords, collectErrors]
  | cons t rest ih =>
    intro st
    rw [runLoop, hstop st.stops]
    simp only [Bool.false_eq_true, if_false]
    obtain ⟨mid, hmid, hev, hreads, _⟩ :=
      runStep_shape env dir fname d cur t { st with stops := st.stops + 1 }
    dsimp only at hev hreads
    obtain ⟨ihs, ihr, ihe⟩ := ih (runStep env dir fname d cur t { st with stops := st.stops + 1 })
    rw [hreads] at ihr ihe
    refine ⟨?_, ?_, ?_⟩
    · rw [ihs, hev]
      show List.filterMap _ (st.events ++ Event.stepStarted t :: (mid ++ [_])) ++ rest = _
      rw [filterMap_step_chunk _ st.events t mid hmid rfl rfl]
      rcases hm : env.meas st.reads with _ | p <;> simp [startedOf]
    · rw [ihr, hev]
      show List.filterMap _ (st.events ++ Event.stepStarted t :: (mid ++ [_])) ++ _ = _
      rw [filterMap_step_chunk _ st.events t mid hmid rfl rfl]
      rcases hm : env.meas st.reads with _ | p <;> simp [recordsOf, collectRecords, hm]
    · rw [ihe, hev]
      show List.filterMap _ (st.events ++ Event.stepStarted t :: (mid ++ [_])) ++ _ = _
      rw [filterMap_step_chunk _ st.events t mid hmid rfl rfl]
      rcases hm : env.meas st.reads with _ | p <;> simp [errorsOf, collectErrors, hm]

/-! ## Cancellation discipline of the sweep loops (C4) -/

theorem runLoop_started_finished (env : Env) (dir : List Char) (fname : Option (List Char))
    (d cur : ℚ) :
    ∀ (temps : List ℚ) (st : RunSt),
      startedOf st.events = finishedOf st.events →
      startedOf (runLoop env dir fname d cur temps st).events
        = finishedOf (runLoop env dir fname d cur temps st).events := by
  intro temps
  induction temps with
  | nil => intro st h; exact h
  | cons t rest ih =>
    intro st h
    rw [runLoop]
    split
    · show startedOf (st.events ++ [Event.stopBreak]) = finishedOf (st.events ++ [Event.stopBreak])
      rw [startedOf_append, finishedOf_append, h]
      rfl
    · apply ih
      obtain ⟨mid, hmid, hev, _, _⟩ :=
        runStep_shape env dir fname d cur t { st with stops := st.stops + 1 }
      dsimp only at hev
      rw [hev]
      show List.filterMap _ (st.events ++ Event.stepStarted t :: (mid ++ [_]))
        = List.filterMap _ (st.events ++ Event.stepStarted t :: (mid ++ [_]))
      rw [filterMap_step_chunk _ st.events t mid hmid rfl rfl,
        filterMap_step_chunk _ st.events t mid hmid rfl rfl]
      rcases hm : env.meas st.reads with _ | p <;> simp [startedOf, finishedOf] <;> exact h

theorem runLoop2_started_finished (env : Env) (dir : List Char) (fname : Option (List Char))
    (d tempC : ℚ) :
    ∀ (currents : List ℚ) (st : RunSt),
      startedOf st.events = finishedOf st.events →
      startedOf (runLoop2 env dir fname d tempC currents st).events
        = finishedOf (runLoop2 env dir fname d tempC currents st).events := by
  intro currents
  induction currents with
  | nil => intro st h; exact h
  | cons c rest ih =>
    intro st h
    rw [runLoop2]
    split
    · show startedOf (st.events ++ [Event.stopBreak]) = finishedOf (st.events ++ [Event.stopBreak])
      rw [startedOf_append, finishedOf_append, h]
      rfl
    · apply ih
      obtain ⟨mid, hmid, hev, _, _⟩ :=
        runStep2_shape env dir fname d tempC c { st with stops := st.stops + 1 }
      dsimp only at hev
      rw [hev]
      show List.filterMap _ (st.events ++ Event.stepStarted c :: (mid ++ [_]))
        = List.filterMap _ (st.events ++ Event.stepStarted c :: (mid ++ [_]))
      rw [filterMap_step_chunk _ st.events c mid hmid rfl rfl,
        filterMap_step_chunk _ st.events c mid hmid rfl rfl]
      rcases hm : env.meas st.reads with _ | p <;> simp [startedOf, finishedOf] <;> exact h

theorem runLoop_break_shape (env : Env) (dir : List Char) (fname : Option (List Char))
    (d cur : ℚ) :
    ∀ (temps : List ℚ) (st : RunSt), Event.stopBreak ∉ st.events →
      (Event.stopBreak ∉ (runLoop env dir fname d cur temps st).events
       ∨ ∃ pre, (runLoop env dir fname d cur temps st).events = pre ++ [Event.stopBreak]
           ∧ Event.stopBreak ∉ pre) := by
  intro temps
  induction temps with
  | nil => intro st h; exact Or.inl h
  | cons t rest ih =>
    intro st h
    rw [runLoop]
    split
    · exact Or.inr ⟨st.events, rfl, h⟩
    · apply ih
      obtain ⟨mid, hmid, hev, _, _⟩ :=
        runStep_shape env dir fname d cur t { st with stops := st.stops + 1 }
      dsimp only at hev
      rw [hev]
      intro hmem
      rcases List.mem_append.mp hmem with hmem | hmem
      · exact h hmem
      · rcases List.mem_cons.mp hmem with hmem | hmem
        · exact Event.noConfusion hmem
        · rcases List.mem_append.mp hmem with hmem | hmem
          · rcases hmid _ hmem with he | he <;> exact Event.noConfusion he
          · rcases List.mem_singleton.mp hmem with he
            revert he
            rcases env.meas st.reads with _ | p <;> exact fun he => Event.noConfusion he

theorem runLoop2_break_shape (env : Env) (dir : List Char) (fname : Option (List Char))
    (d tempC : ℚ) :
    ∀ (currents : List ℚ) (st : RunSt), Event.stopBreak ∉ st.events →
      (Event.stopBreak ∉ (runLoop2 env dir fname d tempC currents st).events
       ∨ ∃ pre, (runLoop2 env dir fname d tempC currents st).events = pre ++ [Event.stopBreak]
           ∧ Event.stopBreak ∉ pre) := by
  intro currents
  induction currents with
  | nil => intro st h; exact Or.inl h
  | cons c rest ih =>
    intro st h
    rw [runLoop2]
    split
    · exact Or.inr ⟨st.events, rfl, h⟩
    · apply ih
      obtain ⟨mid, hmid, hev, _, _⟩ :=
        runStep2_shape env dir fname d tempC c { st with stops := st.stops + 1 }
      dsimp only at hev
      rw [hev]
      intro hmem
      rcases List.mem_append.mp hmem with hmem | hmem
      · exact h hmem
      · rcases List.mem_cons.mp hmem with hmem | hmem
        · exact Event.noConfusion hmem
        · rcases List.mem_append.mp hmem with hmem | hmem
          · rcases hmid _ hmem with he | he <;> exact Event.noConfusion he
          · rcases List.mem_singleton.mp hmem with he
            revert he
            rcases env.meas st.reads with _ | p <;> exact fun he => Event.noConfusion he

theorem stopsAfterBreak_of_shape (evs : List Event)
    (h : Event.stopBreak ∉ evs
      ∨ ∃ pre, evs = pre ++ [Event.stopBreak] ∧ Event.stopBreak ∉ pre) :
    stopsAfterBreak evs := by
  intro pre post heq
  rcases h with h | ⟨pre', hpre', hfree⟩
  · exfalso
    apply h
    rw [heq]
    simp
  · by_contra hne
    obtain ⟨q, qs, hq⟩ := List.exists_cons_of_ne_nil hne
    subst hq
    rw [heq] at hpre'
    have hd := congrArg List.dropLast hpre'
    rw [List.dropLast_concat, List.dropLast_append_of_ne_nil _ (List.cons_ne_nil _ _)] at hd
    apply hfree
    rw [← hd]
    simp [List.dropLast]

/-! ## The summary file across a sweep (C10) -/

theorem appendSummary_rowsFor (fs : FS) (dir : List Char) (fname : Option (List Char))
    (cur t p : ℚ) (recs : List (ℚ × ℚ))
    (h : fs (summaryPath dir 1 fname) = rowsFor cur recs) :
    appendSummary fs dir 1 fname cur (some t) p (summaryPath dir 1 fname)
      = rowsFor cur (recs ++ [(t, p)]) := by
  by_cases hr : recs = []
  · subst hr
    have h0 : fs (summaryPath dir 1 fname) = none := by rw [h]; rfl
    unfold appendSummary
    rw [h0]
    dsimp only
    rw [fsUpdate_self]
    rfl
  · have h1 : fs (summaryPath dir 1 fname)
        = some (Row.header :: recs.map fun r => Row.data cur (some r.1) r.2) := by
      rw [h]
      unfold rowsFor
      rw [if_neg hr]
    unfold appendSummary
    rw [h1]
    dsimp only
    rw [fsUpdate_self]
    unfold rowsFor
    rw [if_neg (by simp)]
    simp

theorem runLoop_fs (env : Env) (dir : List Char) (fname : Option (List Char)) (d cur : ℚ) :
    ∀ (temps : List ℚ) (st : RunSt),
      st.fs (summaryPath dir 1 fname) = rowsFor cur (recordsOf st.events) →
      (runLoop env dir fname d cur temps st).fs (summaryPath dir 1 fname)
        = rowsFor cur (recordsOf (runLoop env dir fname d cur temps st).events) := by
  intro temps
  induction temps with
  | nil => intro st h; exact h
  | cons t rest ih =>
    intro st h
    rw [runLoop]
    split
    · show st.fs _ = rowsFor cur (recordsOf (st.events ++ [Event.stopBreak]))
      rw [recordsOf_append, show recordsOf [Event.stopBreak] = [] from rfl, List.append_nil]
      exact h
    · apply ih
      obtain ⟨mid, hmid, hev, _, hfs⟩ :=
        runStep_shape env dir fname d cur t { st with stops := st.stops + 1 }
      dsimp only at hev hfs
      rw [hev, hfs]
      show _ = rowsFor cur
        (List.filterMap _ (st.events ++ Event.stepStarted t :: (mid ++ [_])))
      rw [filterMap_step_chunk _ st.events t mid hmid rfl rfl]
      rcases hm : env.meas st.reads with _ | p
      · simpa [recordsOf] using h
      · dsimp only
        rw [appendSummary_rowsFor st.fs dir fname cur t p (recordsOf st.events) h]
        simp [recordsOf]

theorem appendSummary2_rowsFor (fs : FS) (dir : List Char) (fname : Option (List Char))
    (tempC c p : ℚ) (recs : List (ℚ × ℚ))
    (h : fs (summaryPath dir 2 fname) = rowsFor2 tempC recs) :
    appendSummary fs dir 2 fname c (some tempC) p (summaryPath dir 2 fname)
      = rowsFor2 tempC (recs ++ [(c, p)]) := by
  by_cases hr : recs = []
  · subst hr
    have h0 : fs (summaryPath dir 2 fname) = none := by rw [h]; rfl
    unfold appendSummary
    rw [h0]
    dsimp only
    rw [fsUpdate_self]
    rfl
  · have h1 : fs (summaryPath dir 2 fname)
        = some (Row.header :: recs.map fun r => Row.data r.1 (some tempC) r.2) := by
      rw [h]
      unfold rowsFor2
      rw [if_neg hr]
    unfold appendSummary
    rw [h1]
    dsimp only
    rw [fsUpdate_self]
    unfold rowsFor2
    rw [if_neg (by simp)]
    simp

theorem runLoop2_fs (env : Env) (dir : List Char) (fname : Option (List Char)) (d tempC : ℚ) :
    ∀ (currents : List ℚ) (st : RunSt),
      st.fs (summaryPath dir 2 fname) = rowsFor2 tempC (recordsOf st.events) →
      (runLoop2 env dir fname d tempC currents st).fs (summaryPath dir 2 fname)
        = rowsFor2 tempC (recordsOf (runLoop2 env dir fname d tempC currents st).events) := by
  intro currents
  induction currents with
  | nil => intro st h; exact h
  | cons c rest ih =>
    intro st h
    rw [runLoop2]
    split
    · show st.fs _ = rowsFor2 tempC (recordsOf (st.events ++ [Event.stopBreak]))
      rw [recordsOf_append, show recordsOf [Event.stopBreak] = [] from rfl, List.append_nil]
      exact h
    · apply ih
      obtain ⟨mid, hmid, hev, _, hfs⟩ :=
        runStep2_shape env dir fname d tempC c { st with stops := st.stops + 1 }
      dsimp only at hev hfs
      rw [hev, hfs]
      show _ = rowsFor2 tempC
        (List.filterMap _ (st.events ++ Event.stepStarted c :: (mid ++ [_])))
      rw [filterMap_step_chunk _ st.events c mid hmid rfl rfl]
      rcases hm : env.meas st.reads with _ | p
      · simpa [recordsOf] using h
      · dsimp only
        rw [appendSummary2_rowsFor st.fs dir fname tempC c p (recordsOf st.events) h]
        simp [recordsOf]

theorem group2Preamble_shape (env : Env) (tempC : ℚ) (st0 : RunSt) :
    ∃ mid : List Event,
      (∀ e ∈ mid, e = Event.waitCancelled tempC ∨ e = Event.timeoutLogged tempC)
      ∧ (group2Preamble env tempC st0).events = st0.events ++ mid
      ∧ (group2Preamble env tempC st0).fs = st0.fs
      ∧ (group2Preamble env tempC st0).reads = st0.reads := by
  unfold group2Preamble
  split
  · dsimp only
    split
    · exact ⟨[], by simp, by simp, rfl, rfl⟩
    · refine ⟨_ ++ _, ?_, List.append_assoc _ _ _, rfl, rfl⟩
      intro e he
      rcases List.mem_append.mp he with h | h
      · left
        split at h <;> simp at h
        exact h
      · right
        split at h <;> simp at h
        exact h
  · exact ⟨[], by simp, by simp, rfl, rfl⟩

/-! ## C3: stabilization timeout is bounded and non-fatal -/

/-- C3: if every temperature readback during the stabilization wait differs
from the setpoint by more than the 0.1 °C threshold and no stop is requested,
the wait loop ends in a timed-out state (`stable = false`) with its
accumulated wait time in `[max_wait, max_wait + poll_interval)` where
`max_wait = delay*5` and the poll interval is 0.5 s — not earlier and not
unboundedly; the step then logs the timeout and still performs the
measurement (recording it on success, logging an error on failure):
the timeout is non-fatal to the sweep. -/
theorem C3_stabilization_timeout (env : Env) (dir : List Char) (fname : Option (List Char))
    (delay cur t : ℚ) (st : RunSt)
    (hlaser : env.laser = true)
    (hdelay : 0 < delay)
    (hrb : ∀ n v, env.temp n = some v → 1 / 10 < |v - t|)
    (hstop : ∀ n, env.stop n = false) :
    (waitStable env.stop env.temp t (1 / 10) (delay * 5) (1 / 2)
        (waitFuel (delay * 5) (1 / 2)) 0 st.polls st.stops).stable = false
    ∧ delay * 5 ≤ (waitStable env.stop env.temp t (1 / 10) (delay * 5) (1 / 2)
        (waitFuel (delay * 5) (1 / 2)) 0 st.polls st.stops).waited
    ∧ (waitStable env.stop env.temp t (1 / 10) (delay * 5) (1 / 2)
        (waitFuel (delay * 5) (1 / 2)) 0 st.polls st.stops).waited < delay * 5 + 1 / 2
    ∧ (runStep env dir fname delay cur t st).events
        = st.events ++ [Event.stepStarted t, Event.timeoutLogged t]
            ++ [match env.meas st.reads with
                | some p => Event.recorded t p
                | none => Event.errorLogged t]
    ∧ (runStep env dir fname delay cur t st).reads = st.reads + 1 := by
  have hfu : (delay * 5 - 0) / (1 / 2)
      < ((waitFuel (delay * 5) (1 / 2) : ℕ) : ℚ) := by
    rw [sub_zero]
    exact waitFuel_adequate (delay * 5) (1 / 2)
  obtain ⟨hstable, hsaw, hge, hlt⟩ :=
    waitStable_timeout env.stop env.temp t (1 / 10) (delay * 5) (1 / 2)
      (by norm_num) hrb hstop (waitFuel (delay * 5) (1 / 2)) 0 st.polls st.stops
      hfu (by linarith)
  have hws : stepWait env delay t st
      = ((waitStable env.stop env.temp t (1 / 10) (delay * 5) (1 / 2)
            (waitFuel (delay * 5) (1 / 2)) 0 st.polls st.stops).polls,
         (waitStable env.stop env.temp t (1 / 10) (delay * 5) (1 / 2)
            (waitFuel (delay * 5) (1 / 2)) 0 st.polls st.stops).stops + 1,
         [Event.timeoutLogged t]) := by
    unfold stepWait
    rw [hlaser, if_pos rfl]
    dsimp only
    rw [hstable, hsaw, hstop]
    simp only [Bool.false_eq_true, if_false, List.nil_append]
  refine ⟨hstable, hge, hlt, ?_, ?_⟩
  · unfold runStep
    rcases env.meas st.reads with _ | p <;> simp [hws]
  · unfold runStep
    rcases env.meas st.reads with _ | p <;> simp [hws]

/-- Witness for C3 at a concrete environment whose readback is always
100 °C against the setpoint 1 °C. -/
theorem C3_witness :
    (waitStable (fun _ => false) (fun _ => some 100) 1 (1 / 10) (1 * 5) (1 / 2)
        (waitFuel (1 * 5) (1 / 2)) 0 (initSt fun _ => none).polls
        (initSt fun _ => none).stops).stable = false
    ∧ 1 * 5 ≤ (waitStable (fun _ => false) (fun _ => some 100) 1 (1 / 10) (1 * 5) (1 / 2)
        (waitFuel (1 * 5) (1 / 2)) 0 (initSt fun _ => none).polls
        (initSt fun _ => none).stops).waited
    ∧ (waitStable (fun _ => false) (fun _ => some 100) 1 (1 / 10) (1 * 5) (1 / 2)
        (waitFuel (1 * 5) (1 / 2)) 0 (initSt fun _ => none).polls
        (initSt fun _ => none).stops).waited < 1 * 5 + 1 / 2
    ∧ (runStep ⟨fun _ => false, fun _ => some 100, fun _ => none, fun _ => none, true⟩
          ['d'] none 1 0 1 (initSt fun _ => none)).events
        = (initSt (fun _ => none) : RunSt).events
            ++ [Event.stepStarted 1, Event.timeoutLogged 1]
            ++ [match (fun _ => (none : Option ℚ)) (initSt (fun _ => none) : RunSt).reads with
                | some p => Event.recorded 1 p
                | none => Event.errorLogged 1]
    ∧ (runStep ⟨fun _ => false, fun _ => some 100, fun _ => none, fun _ => none, true⟩
          ['d'] none 1 0 1 (initSt fun _ => none)).reads
        = (initSt (fun _ => none) : RunSt).reads + 1 :=
  C3_stabilization_timeout
    ⟨fun _ => false, fun _ => some 100, fun _ => none, fun _ => none, true⟩
    ['d'] none 1 0 1 (initSt fun _ => none) rfl (by norm_num)
    (fun n v h => by cases h; rw [show |(100 : ℚ) - 1| = 99 from by norm_num]; norm_num)
    (fun _ => rfl)

/-! ## C4: cancellation semantics -/

/-- C4 (amended): once a boundary check observes the stop flag the sweep
emits nothing further (the `stopBreak` can only be the trace's final event),
so no later setpoint iteration starts; but every iteration that did start
runs to completion — it is finished by either a summary record or a logged
measurement error, and a stop flag raised during a step's stabilization wait
only shortens the wait, it does not suppress that step's record. This holds
for CT_P `run_group1` and `run_group2` alike. -/
theorem C4_cancellation :
    (∀ env fs dir fname startT endT step d cur,
        stopsAfterBreak (runGroup1 env fs dir fname startT endT step d cur).events
        ∧ startedOf (runGroup1 env fs dir fname startT endT step d cur).events
            = finishedOf (runGroup1 env fs dir fname startT endT step d cur).events)
    ∧ (∀ env fs dir fname startC stepC stopC tempC d,
        stopsAfterBreak (runGroup2 env fs dir fname startC stepC stopC tempC d).events
        ∧ startedOf (runGroup2 env fs dir fname startC stepC stopC tempC d).events
            = finishedOf (runGroup2 env fs dir fname startC stepC stopC tempC d).events) := by
  constructor
  · intro env fs dir fname startT endT step d cur
    unfold runGroup1
    rcases float_range startT endT step with _ | temps
    · exact ⟨stopsAfterBreak_of_shape _ (Or.inl (by simp)), rfl⟩
    · constructor
      · exact stopsAfterBreak_of_shape _
          (runLoop_break_shape env dir (fname.map withCsv) d cur temps _ (by simp [initSt]))
      · exact runLoop_started_finished env dir (fname.map withCsv) d cur temps _ rfl
  · intro env fs dir fname startC stepC stopC tempC d
    unfold runGroup2
    dsimp only
    generalize (match fname with
      | some f => fsRemove fs (joinPath dir (withCsv f))
      | none => fs : FS) = fs1
    obtain ⟨mid, hmid, hev, _, _⟩ := group2Preamble_shape env tempC (initSt fs1)
    have hmem : Event.stopBreak ∉ (group2Preamble env tempC (initSt fs1)).events := by
      rw [hev]
      intro hm
      rcases List.mem_append.mp hm with hm | hm
      · simp [initSt] at hm
      · rcases hmid _ hm with h | h <;> exact Event.noConfusion h
    have hsf : startedOf (group2Preamble env tempC (initSt fs1)).events
        = finishedOf (group2Preamble env tempC (initSt fs1)).events := by
      rw [hev]
      show List.filterMap _ ([] ++ mid) = List.filterMap _ ([] ++ mid)
      rw [List.nil_append,
        mid_filterMap_nil _ tempC mid hmid rfl rfl,
        mid_filterMap_nil _ tempC mid hmid rfl rfl]
    split
    · constructor
      · apply stopsAfterBreak_of_shape
        left
        show Event.stopBreak ∉ (group2Preamble env tempC (initSt fs1)).events
          ++ [Event.fatalLogged]
        intro hm
        rcases List.mem_append.mp hm with hm | hm
        · exact hmem hm
        · simp at hm
      · show startedOf (_ ++ [Event.fatalLogged]) = finishedOf (_ ++ [Event.fatalLogged])
        rw [startedOf_append, finishedOf_append, hsf]
        rfl
    · constructor
      · exact stopsAfterBreak_of_shape _
          (runLoop2_break_shape env dir (fname.map withCsv) d tempC _ _ hmem)
      · exact runLoop2_started_finished env dir (fname.map withCsv) d tempC _ _ hsf

/-- Counterexample to C4 as stated: with the stop flag raised after its first
read (so cancellation arrives while step 30 °C is in flight, observed inside
the stabilization wait — the `waitCancelled` event), the in-flight step is
NOT discarded: its measurement is taken and its summary record appended
(`recorded 30 5` follows `waitCancelled 30`); only the next boundary check
breaks the loop. -/
theorem C4_counterexample :
    (runGroup1 ⟨fun n => decide (1 ≤ n), fun _ => some 100, fun _ => none, fun _ => some 5, true⟩
        (fun _ => none) ['d'] (some ['a']) 30 31 1 1 360).events
      = [Event.stepStarted 30, Event.waitCancelled 30, Event.recorded 30 5, Event.stopBreak]
    ∧ recordsOf [Event.stepStarted 30, Event.waitCancelled 30, Event.recorded 30 5,
        Event.stopBreak] = [(30, 5)] := by
  constructor
  · norm_num [runGroup1, float_range, ascFuel, eps9, floatRangeAscAux, pyRound6,
      pyRoundHalfEven, Int.toNat_ofNat, Int.fract, abs_of_pos, runLoop, runStep, stepWait,
      waitStable, waitFuel, initSt]
  · rfl

/-- Witness for the amended C4 theorem: a run whose very first boundary check
observes the stop flag emits the `stopBreak` as its final event, and a
stop-free run has every started step finished. -/
theorem C4_witness :
    ([] : List Event) = []
    ∧ startedOf (runGroup1 ⟨fun _ => false, fun _ => none, fun _ => none, fun _ => none, true⟩
          (fun _ => none) ['d'] none 30 31 1 1 360).events
        = finishedOf (runGroup1 ⟨fun _ => false, fun _ => none, fun _ => none, fun _ => none, true⟩
          (fun _ => none) ['d'] none 30 31 1 1 360).events :=
  ⟨(C4_cancellation.1 ⟨fun _ => true, fun _ => none, fun _ => none, fun _ => none, true⟩
      (fun _ => none) ['d'] none 30 31 1 1 360).1 [] []
      (by norm_num [runGroup1, float_range, ascFuel, eps9, floatRangeAscAux, pyRound6,
        pyRoundHalfEven, Int.toNat_ofNat, Int.fract, abs_of_pos, runLoop, initSt]),
   (C4_cancellation.1 ⟨fun _ => false, fun _ => none, fun _ => none, fun _ => none, true⟩
      (fun _ => none) ['d'] none 30 31 1 1 360).2⟩

/-! ## C5: per-step failure isolation -/

/-- C5: on a 5-setpoint sweep with the stop flag never set, where the
measurement read fails at exactly the third setpoint and succeeds at the
other four, `run_group1` appends exactly the 4 records of the successful
setpoints (in sweep order), logs exactly one measurement error (for the third
setpoint), and still starts every one of the 5 setpoints — the sweep runs to
completion instead of aborting. -/
theorem C5_per_step_failure_isolation (env : Env) (fs : FS) (dir : List Char)
    (fname : Option (List Char)) (startT endT step d cur : ℚ)
    (temps : List ℚ) (p0 p1 p3 p4 : ℚ)
    (hstop : ∀ n, env.stop n = false)
    (htemps : float_range startT endT step = some temps)
    (hlen : temps.length = 5)
    (h0 : env.meas 0 = some p0) (h1 : env.meas 1 = some p1)
    (h2 : env.meas 2 = none)
    (h3 : env.meas 3 = some p3) (h4 : env.meas 4 = some p4) :
    recordsOf (runGroup1 env fs dir fname startT endT step d cur).events
        = [(temps.getD 0 0, p0), (temps.getD 1 0, p1), (temps.getD 3 0, p3), (temps.getD 4 0, p4)]
    ∧ errorsOf (runGroup1 env fs dir fname startT endT step d cur).events = [temps.getD 2 0]
    ∧ startedOf (runGroup1 env fs dir fname startT endT step d cur).events = temps := by
  obtain ⟨t0, t1, t2, t3, t4, htl⟩ :
      ∃ a b c dd e, temps = [a, b, c, dd, e] := by
    rcases temps with _ | ⟨a, _ | ⟨b, _ | ⟨c, _ | ⟨dd, _ | ⟨e, _ | ⟨f, l⟩⟩⟩⟩⟩⟩ <;>
      simp at hlen
    exact ⟨a, b, c, dd, e, rfl⟩
  subst htl
  unfold runGroup1
  rw [htemps]
  obtain ⟨hs, hr, he⟩ :=
    runLoop_no_stop env dir (fname.map withCsv) d cur hstop [t0, t1, t2, t3, t4]
      (initSt (match fname with
        | some f => fsRemove fs (joinPath dir (withCsv f))
        | none => fs))
  refine ⟨?_, ?_, ?_⟩
  · rw [hr]
    simp [initSt, recordsOf, collectRecords, h0, h1, h2, h3, h4]
  · rw [he]
    simp [initSt, errorsOf, collectErrors, h0, h1, h2, h3, h4]
  · rw [hs]
    simp [initSt, startedOf]

/-- Witness for C5 at the sweep 1 → 5 by 1 with the measurement failing at
read index 2 only. -/
theorem C5_witness :
    recordsOf (runGroup1
        ⟨fun _ => false, fun _ => some 0, fun _ => none,
          fun n => if n = 2 then none else some 7, true⟩
        (fun _ => none) ['d'] (some ['a']) 1 5 1 1 360).events
      = [([(1 : ℚ), 2, 3, 4, 5].getD 0 0, 7), ([(1 : ℚ), 2, 3, 4, 5].getD 1 0, 7),
         ([(1 : ℚ), 2, 3, 4, 5].getD 3 0, 7), ([(1 : ℚ), 2, 3, 4, 5].getD 4 0, 7)]
    ∧ errorsOf (runGroup1
        ⟨fun _ => false, fun _ => some 0, fun _ => none,
          fun n => if n = 2 then none else some 7, true⟩
        (fun _ => none) ['d'] (some ['a']) 1 5 1 1 360).events
      = [[(1 : ℚ), 2, 3, 4, 5].getD 2 0]
    ∧ startedOf (runGroup1
        ⟨fun _ => false, fun _ => some 0, fun _ => none,
          fun n => if n = 2 then none else some 7, true⟩
        (fun _ => none) ['d'] (some ['a']) 1 5 1 1 360).events
      = [1, 2, 3, 4, 5] :=
  C5_per_step_failure_isolation
    ⟨fun _ => false, fun _ => some 0, fun _ => none,
      fun n => if n = 2 then none else some 7, true⟩
    (fun _ => none) ['d'] (some ['a']) 1 5 1 1 360 [1, 2, 3, 4, 5] 7 7 7 7
    (fun _ => rfl)
    (by norm_num [float_range, ascFuel, eps9, floatRangeAscAux, pyRound6, pyRoundHalfEven,
      Int.toNat_ofNat, Int.fract, abs_of_pos])
    (by norm_num) rfl rfl rfl rfl rfl

/-! ## C10: the summary file never carries rows over from earlier runs -/

/-- C10: at the start of every `run_group1` / `run_group2` (CT_P) and
`run_group1` (CT_L) call with a summary file name, the file at the resolved
summary path (the name with `.csv` appended if missing, under the save
directory) is deleted before any measurement; consequently, whatever the file
system held before the call, after the run that path holds nothing when the
run recorded nothing, and otherwise exactly one header row followed by
exactly this run's records in order — never rows surviving from earlier
runs. The right-hand sides depend only on the run's own trace, not on the
initial file system. -/
theorem C10_summary_file_fresh :
    (∀ env fs dir f startT endT step d cur,
        (runGroup1 env fs dir (some f) startT endT step d cur).fs (joinPath dir (withCsv f))
          = rowsFor cur (recordsOf (runGroup1 env fs dir (some f) startT endT step d cur).events))
    ∧ (∀ env fs dir f startC stepC stopC tempC d,
        (runGroup2 env fs dir (some f) startC stepC stopC tempC d).fs (joinPath dir (withCsv f))
          = rowsFor2 tempC
              (recordsOf (runGroup2 env fs dir (some f) startC stepC stopC tempC d).events))
    ∧ (∀ env fs dir f startT endT step d cur fineC fineR,
        (ctlRunGroup1 env fs dir (some f) startT endT step d cur fineC fineR).fs
            (joinPath dir (withCsv f))
          = rowsFor cur
              (recordsOf (ctlRunGroup1 env fs dir (some f) startT endT step d cur
                fineC fineR).events)) := by
  have hpath : ∀ dir f, summaryPath dir 1 (Option.map withCsv (some f))
      = joinPath dir (withCsv f) := by
    intro dir f
    show joinPath dir (withCsv (withCsv f)) = joinPath dir (withCsv f)
    rw [withCsv_idem]
  have hpath2 : ∀ dir f, summaryPath dir 2 (Option.map withCsv (some f))
      = joinPath dir (withCsv f) := by
    intro dir f
    show joinPath dir (withCsv (withCsv f)) = joinPath dir (withCsv f)
    rw [withCsv_idem]
  refine ⟨?_, ?_, ?_⟩
  · intro env fs dir f startT endT step d cur
    unfold runGroup1
    dsimp only
    rcases float_range startT endT step with _ | temps
    · show fsRemove fs (joinPath dir (withCsv f)) (joinPath dir (withCsv f))
        = rowsFor cur (recordsOf [Event.fatalLogged])
      rw [fsRemove_self]
      rfl
    · have hinv0 : (initSt (fsRemove fs (joinPath dir (withCsv f)))).fs
          (summaryPath dir 1 (Option.map withCsv (some f)))
          = rowsFor cur (recordsOf (initSt (fsRemove fs (joinPath dir (withCsv f)))).events) := by
        show fsRemove fs (joinPath dir (withCsv f))
            (summaryPath dir 1 (Option.map withCsv (some f))) = _
        rw [hpath dir f, fsRemove_self]
        rfl
      have hmain := runLoop_fs env dir (Option.map withCsv (some f)) d cur temps _ hinv0
      rw [hpath dir f] at hmain
      exact hmain
  · intro env fs dir f startC stepC stopC tempC d
    unfold runGroup2
    dsimp only
    obtain ⟨mid, hmid, hev, hfs, _⟩ := group2Preamble_shape env tempC
      (initSt (fsRemove fs (joinPath dir (withCsv f))))
    have hrecs : recordsOf (group2Preamble env tempC
        (initSt (fsRemove fs (joinPath dir (withCsv f))))).events = [] := by
      rw [hev]
      show List.filterMap _ ([] ++ mid) = []
      rw [List.nil_append, mid_filterMap_nil _ tempC mid hmid rfl rfl]
    have hinv : (group2Preamble env tempC
          (initSt (fsRemove fs (joinPath dir (withCsv f))))).fs
            (summaryPath dir 2 (Option.map withCsv (some f)))
        = rowsFor2 tempC (recordsOf (group2Preamble env tempC
            (initSt (fsRemove fs (joinPath dir (withCsv f))))).events) := by
      rw [hfs, hrecs]
      show fsRemove fs (joinPath dir (withCsv f))
          (summaryPath dir 2 (Option.map withCsv (some f))) = _
      rw [hpath2 dir f, fsRemove_self]
      rfl
    split
    · show (group2Preamble env tempC
            (initSt (fsRemove fs (joinPath dir (withCsv f))))).fs (joinPath dir (withCsv f))
        = rowsFor2 tempC (recordsOf ((group2Preamble env tempC
            (initSt (fsRemove fs (joinPath dir (withCsv f))))).events ++ [Event.fatalLogged]))
      rw [recordsOf_append, hrecs, hfs]
      show fsRemove fs (joinPath dir (withCsv f)) (joinPath dir (withCsv f)) = _
      rw [fsRemove_self]
      rfl
    · have hmain := runLoop2_fs env dir (Option.map withCsv (some f)) d tempC
        (floatRangeDescAux stopC |stepC| (descFuel stopC |stepC| startC) startC) _ hinv
      rw [hpath2 dir f] at hmain
      exact hmain
  · intro env fs dir f startT endT step d cur fineC fineR
    unfold ctlRunGroup1
    have hp1 : summaryPath dir 1 (some f) = joinPath dir (withCsv f) := rfl
    rw [hp1]
    rcases fineC with _ | c
    · show fsRemove fs (joinPath dir (withCsv f)) (joinPath dir (withCsv f))
        = rowsFor cur (recordsOf [Event.fatalLogged])
      rw [fsRemove_self]
      rfl
    · rcases fineR with _ | r
      · show fsRemove fs (joinPath dir (withCsv f)) (joinPath dir (withCsv f))
          = rowsFor cur (recordsOf [Event.fatalLogged])
        rw [fsRemove_self]
        rfl
      · dsimp only
        split
        · show fsRemove fs (joinPath dir (withCsv f)) (joinPath dir (withCsv f))
            = rowsFor cur (recordsOf [Event.fatalLogged])
          rw [fsRemove_self]
          rfl
        · rcases ctlBuildTemps startT endT step (ctlFineBounds startT endT c r).1
            (ctlFineBounds startT endT c r).snd.fst with _ | temps
          · show fsRemove fs (joinPath dir (withCsv f)) (joinPath dir (withCsv f))
              = rowsFor cur (recordsOf [Event.fatalLogged])
            rw [fsRemove_self]
            rfl
          · have hinv0 : (initSt (fsRemove fs (joinPath dir (withCsv f)))).fs
                (summaryPath dir 1 (Option.map withCsv (some f)))
                = rowsFor cur
                    (recordsOf (initSt (fsRemove fs (joinPath dir (withCsv f)))).events) := by
              show fsRemove fs (joinPath dir (withCsv f))
                  (summaryPath dir 1 (Option.map withCsv (some f))) = _
              rw [hpath dir f, fsRemove_self]
              rfl
            have hmain := runLoop_fs env dir (Option.map withCsv (some f)) d cur temps _ hinv0
            rw [hpath dir f] at hmain
            exact hmain

end PTS
